import Mathlib

/-!
Verification of the research-paper-parser repository's documented behavior.

Python strings are modelled as `List Char`; Python `dict`s as insertion-ordered
association lists; fallible code returns `Except` or `Option`.  Each modelled
function is translated from one source function, named after it (prefixed with
the journal module it comes from, since the repository duplicates functions
per journal with small differences).
-/

namespace RPP

/-! ## Python string primitives -/

/-- Characters treated as whitespace by Python's `str.split()` / `str.strip()`
(ASCII subset; the repository's inputs are ASCII-processed PDF text). -/
def isPySpace (c : Char) : Bool :=
  c = ' ' || c = '\t' || c = '\n' || c = '\r' || c = '\x0b' || c = '\x0c'

/-- Python `s.strip()`: drop leading and trailing whitespace. -/
def pyStrip (s : List Char) : List Char :=
  ((s.dropWhile isPySpace).reverse.dropWhile isPySpace).reverse

/-- Python `s.startswith(pre)` / prefix test used by `find`. -/
def pyStartsWith : List Char → List Char → Bool
  | _, [] => true
  | [], _ :: _ => false
  | a :: s, b :: pre => a = b && pyStartsWith s pre

/-- Lowest index at which `sub` occurs in `hay` (`str.find` without the -1). -/
def pyFindN : List Char → List Char → Option Nat
  | hay, sub =>
    if pyStartsWith hay sub then some 0
    else
      match hay with
      | [] => none
      | _ :: t => (pyFindN t sub).map (· + 1)

/-- Python `hay.find(sub)`: lowest index of occurrence, `-1` when absent. -/
def pyFind (hay sub : List Char) : Int :=
  match pyFindN hay sub with
  | some i => (i : Int)
  | none => -1

/-- Python `sub in hay` (substring containment). -/
def pyContains (hay sub : List Char) : Bool :=
  (pyFindN hay sub).isSome

/-- Normalize a Python slice bound to an index into `s` of length `n`. -/
def pyNormIdx (n : Nat) (i : Int) : Nat :=
  if i < 0 then (max ((n : Int) + i) 0).toNat else min i.toNat n

/-- Python `s[a:b]`. -/
def pySlice (s : List Char) (a b : Int) : List Char :=
  (s.drop (pyNormIdx s.length a)).take (pyNormIdx s.length b - pyNormIdx s.length a)

/-- Python `s[a:]`. -/
def pySliceFrom (s : List Char) (a : Int) : List Char :=
  s.drop (pyNormIdx s.length a)

/-- Python `s.split(c)` for a single-character separator `c`
(keeps empty pieces, like Python). -/
def pySplitOnChar (c : Char) : List Char → List (List Char)
  | [] => [[]]
  | a :: t =>
    if a = c then [] :: pySplitOnChar c t
    else
      match pySplitOnChar c t with
      | [] => [[a]]
      | h :: hs => (a :: h) :: hs

/-- Python `s.split()`: maximal runs of non-whitespace characters (split at
every whitespace character, then drop the empty pieces). -/
def pySplitWs (s : List Char) : List (List Char) :=
  (List.splitOnP isPySpace s).filter (fun t => t ≠ [])

/-- Python `sep.join(parts)`. -/
def pyJoin (sep : List Char) (parts : List (List Char)) : List Char :=
  List.intercalate sep parts

/-- Python `s.replace(" & ", ",")` specialised to the fixed pattern used by
`process_citations` (leftmost, non-overlapping scan, like `str.replace`). -/
def pyReplaceAmpComma : List Char → List Char
  | ' ' :: '&' :: ' ' :: t => ',' :: pyReplaceAmpComma t
  | a :: t => a :: pyReplaceAmpComma t
  | [] => []

/-- Python `s.split(" and ")` specialised to the fixed separator used by
orgsci's `process_citations`. -/
def pySplitAndWord : List Char → List (List Char)
  | ' ' :: 'a' :: 'n' :: 'd' :: ' ' :: t => [] :: pySplitAndWord t
  | a :: t =>
    match pySplitAndWord t with
    | [] => [[a]]
    | h :: hs => (a :: h) :: hs
  | [] => [[]]

/-- Python `s.split("et al.")` specialised to the fixed separator used by
`process_citations`. -/
def pySplitEtAl : List Char → List (List Char)
  | 'e' :: 't' :: ' ' :: 'a' :: 'l' :: '.' :: t => [] :: pySplitEtAl t
  | a :: t =>
    match pySplitEtAl t with
    | [] => [[a]]
    | h :: hs => (a :: h) :: hs
  | [] => [[]]

/-- Python `s.replace("et al.", "")` specialised to the fixed pattern used by
`process_citations`. -/
def pyRemoveEtAl : List Char → List Char
  | 'e' :: 't' :: ' ' :: 'a' :: 'l' :: '.' :: t => pyRemoveEtAl t
  | a :: t => a :: pyRemoveEtAl t
  | [] => []

/-! ## Reference splitter (`text_preprocess_for_reference_matching`) -/

/-- The whitespace collapse shared by every variant of
`text_preprocess_for_reference_matching`:
`re.sub("\n", " ", t)` followed by `" ".join(t.split())`. -/
def collapse (s : List Char) : List Char :=
  pyJoin [' '] (pySplitWs (s.map fun c => if c = '\n' then ' ' else c))

/-- The span-derivation loop of `text_preprocess_for_reference_matching`
(annurev/jom/aom/joap/personnel all contain this identical loop): entry `idx`
becomes `references[references.find(ref) : references.find(next_ref)]`, and
the last entry runs to the end of the text. -/
def derive_spans (references : List Char) : List (List Char) → List (List Char)
  | [] => []
  | [ref] => [pySliceFrom references (pyFind references ref)]
  | ref :: next :: rest =>
    pySlice references (pyFind references ref) (pyFind references next)
      :: derive_spans references (next :: rest)

/-- annurev's `text_preprocess_for_reference_matching`, with the regex engine
treated as an external collaborator: `ms` stands for
`re.findall(pattern, collapsed_text)` (in order, non-overlapping).  No code
path raises when `ms` is empty (the loop body simply never runs), so the
result is always `Except.ok`. -/
def annurev_text_preprocess_for_reference_matching (references_text : List Char)
    (ms : List (List Char)) : Except (List Char) (List (List Char)) :=
  Except.ok (derive_spans (collapse references_text) ms)

/-- jom's `text_preprocess_for_reference_matching`: identical collapse and
span-derivation loop (only the entry-start regex, abstracted as `ms`,
differs), and likewise no code path raises on zero matches. -/
def jom_text_preprocess_for_reference_matching (references_text : List Char)
    (ms : List (List Char)) : Except (List Char) (List (List Char)) :=
  Except.ok (derive_spans (collapse references_text) ms)

/-! ## Facts about `find` and slicing -/

theorem pyStartsWith_length {h sub : List Char} (hp : pyStartsWith h sub = true) :
    sub.length ≤ h.length := by
  induction sub generalizing h with
  | nil => simp
  | cons b pre ih =>
    cases h with
    | nil => simp [pyStartsWith] at hp
    | cons a s =>
      simp only [pyStartsWith, Bool.and_eq_true] at hp
      simpa using Nat.succ_le_succ (ih hp.2)

theorem pyFindN_le {h sub : List Char} {p : Nat} (e : pyFindN h sub = some p) :
    p ≤ h.length := by
  induction h generalizing p with
  | nil =>
    rw [pyFindN] at e
    by_cases hs : pyStartsWith [] sub = true
    · simp [hs] at e
      omega
    · simp [hs] at e
  | cons a t ih =>
    rw [pyFindN] at e
    by_cases hs : pyStartsWith (a :: t) sub = true
    · simp [hs] at e
      omega
    · simp [hs] at e
      obtain ⟨q, hq, rfl⟩ := e
      simpa using Nat.succ_le_succ (ih hq)

theorem pyNormIdx_of_le {n p : Nat} (hp : p ≤ n) : pyNormIdx n (p : Int) = p := by
  simp [pyNormIdx, hp]

theorem pySliceFrom_nat {s : List Char} {p : Nat} (hp : p ≤ s.length) :
    pySliceFrom s (p : Int) = s.drop p := by
  simp [pySliceFrom, pyNormIdx_of_le hp]

theorem pySlice_nat {s : List Char} {p q : Nat} (hp : p ≤ s.length)
    (hq : q ≤ s.length) : pySlice s (p : Int) (q : Int) = (s.drop p).take (q - p) := by
  simp [pySlice, pyNormIdx_of_le hp, pyNormIdx_of_le hq]

theorem take_drop_append_drop {s : List Char} {p q : Nat} (hpq : p ≤ q) :
    (s.drop p).take (q - p) ++ s.drop q = s.drop p := by
  conv_rhs => rw [← List.take_append_drop (q - p) (s.drop p)]
  rw [List.drop_drop, Nat.add_sub_cancel' hpq]

/-- Telescoping of the span-derivation loop: when every matched string occurs
in the text and the first-occurrence positions are nondecreasing, the derived
spans concatenate to the suffix of the text starting at the first match's
first occurrence. -/
theorem derive_spans_flatten (refs : List Char) :
    ∀ (m : List Char) (ms' : List (List Char)),
      (∀ x ∈ m :: ms', (pyFindN refs x).isSome = true) →
      List.Chain' (fun a b => a ≤ b)
        ((m :: ms').map fun x => (pyFindN refs x).getD 0) →
      (derive_spans refs (m :: ms')).flatten
        = refs.drop ((pyFindN refs m).getD 0) := by
  intro m ms'
  induction ms' generalizing m with
  | nil =>
    intro hsome _
    have h1 : (pyFindN refs m).isSome = true := hsome m (by simp)
    obtain ⟨p, hp⟩ := Option.isSome_iff_exists.mp h1
    simp only [derive_spans, List.flatten, List.append_nil]
    rw [hp, pyFind, hp]
    simp [pySliceFrom_nat (pyFindN_le hp)]
  | cons m' rest ih =>
    intro hsome hchain
    obtain ⟨p, hp⟩ := Option.isSome_iff_exists.mp (hsome m (by simp))
    obtain ⟨p', hp'⟩ := Option.isSome_iff_exists.mp (hsome m' (by simp))
    simp only [List.map_cons, List.chain'_cons, hp, hp', Option.getD_some] at hchain
    have hrec := ih m' (fun x hx => hsome x (by simpa using Or.inr hx))
      (by simpa [hp'] using hchain.2)
    simp only [derive_spans, List.flatten_cons]
    rw [hrec, hp']
    rw [pyFind, hp, pyFind, hp']
    rw [pySlice_nat (pyFindN_le hp) (pyFindN_le hp')]
    simp only [Option.getD_some]
    exact take_drop_append_drop hchain.1

/-- C2 (amended): for a bibliography text on which the entry-start pattern
yields at least one match, provided each matched string's first occurrence in
the collapsed text is at a position no earlier than the previous match's
first occurrence, concatenating the derived reference-entry spans in order
reconstructs exactly the suffix of the whitespace-collapsed bibliography text
that starts at the first match's first-occurrence position; any text before
the first entry-start match is dropped, so the whole collapsed text is
reconstructed only when the first match starts at position 0. -/
theorem C2_reference_split_coverage (raw m : List Char) (ms' : List (List Char))
    (hocc : ∀ x ∈ m :: ms', (pyFindN (collapse raw) x).isSome = true)
    (hord : List.Chain' (fun a b => a ≤ b)
      ((m :: ms').map fun x => (pyFindN (collapse raw) x).getD 0)) :
    (derive_spans (collapse raw) (m :: ms')).flatten
      = (collapse raw).drop ((pyFindN (collapse raw) m).getD 0) :=
  derive_spans_flatten (collapse raw) m ms' hocc hord

/-- Witness for C2: a two-entry bibliography whose first entry starts at
position 0 is reconstructed in full. -/
theorem C2_reference_split_coverage_witness :
    (derive_spans (collapse "Smith AB. 1999. Foo. Jones CD. 2000. Bar.".toList)
        ["Smith AB. 1999.".toList, "Jones CD. 2000.".toList]).flatten
      = (collapse "Smith AB. 1999. Foo. Jones CD. 2000. Bar.".toList).drop
          ((pyFindN (collapse "Smith AB. 1999. Foo. Jones CD. 2000. Bar.".toList)
            "Smith AB. 1999.".toList).getD 0) :=
  C2_reference_split_coverage "Smith AB. 1999. Foo. Jones CD. 2000. Bar.".toList
    "Smith AB. 1999.".toList ["Jones CD. 2000.".toList] (by decide)
    (by
      have h : ((["Smith AB. 1999.".toList, "Jones CD. 2000.".toList] :
            List (List Char)).map
          fun x => (pyFindN
            (collapse "Smith AB. 1999. Foo. Jones CD. 2000. Bar.".toList) x).getD 0)
          = [0, 21] := by decide
      rw [h]
      simp [List.chain'_cons, List.chain'_singleton])

/-- C2 counterexample: on the bibliography text `"x Smith AB. 1999. Title."`
the annurev entry-start pattern has exactly one match, `"Smith AB. 1999."`
(hand-checked against `re.findall`), yet the concatenated spans give only the
suffix `"Smith AB. 1999. Title."` and not the collapsed text, because the
two-character prefix `"x "` before the first match is dropped.  The claim as
stated (spans partition the whole collapsed text) is therefore false. -/
theorem C2_reference_split_coverage_cex :
    (derive_spans (collapse "x Smith AB. 1999. Title.".toList)
        ["Smith AB. 1999.".toList]).flatten = "Smith AB. 1999. Title.".toList ∧
    collapse "x Smith AB. 1999. Title.".toList = "x Smith AB. 1999. Title.".toList ∧
    (derive_spans (collapse "x Smith AB. 1999. Title.".toList)
        ["Smith AB. 1999.".toList]).flatten
      ≠ collapse "x Smith AB. 1999. Title.".toList := by
  decide

/-- C3 (amended): on zero entry-start matches the reference splitter neither
raises nor produces a typed `ReferenceEntryPatternNoMatch` failure (no such
type exists anywhere in the repository); it returns the empty entry list. -/
theorem C3_zero_match_returns_empty_list :
    (∀ t : List Char,
      annurev_text_preprocess_for_reference_matching t [] = Except.ok []) ∧
    (∀ t : List Char,
      jom_text_preprocess_for_reference_matching t [] = Except.ok []) :=
  ⟨fun _ => rfl, fun _ => rfl⟩

/-- C3 counterexample: a concrete bibliography block on which the entry-start
pattern yields zero matches makes the splitter return `Except.ok []` — an
empty entry list and no error — contradicting the claim that a typed error is
raised rather than an empty list returned. -/
theorem C3_zero_match_cex :
    annurev_text_preprocess_for_reference_matching
      "this block matches no entry pattern".toList [] = Except.ok [] := rfl

/-! ## Citation matcher (`find_citation_matches`) -/

/-- An author-year pair as produced by `process_citations`:
a list of author surnames and a year string. -/
abbrev AYPair := List (List Char) × List Char

/-- The references dictionary built by `find_citation_matches`: a Python
`dict` from a reference's raw text to its list of citing locations, modelled
as an insertion-ordered association list. -/
abbrev RefDict := List (List Char × List (List Char))

/-- Python `data.get(k, [])` (first matching key, like a `dict`). -/
def dGet : RefDict → List Char → List (List Char)
  | [], _ => []
  | kv :: t, k => if kv.1 = k then kv.2 else dGet t k

/-- Python `k in data`. -/
def dMem : RefDict → List Char → Bool
  | [], _ => false
  | kv :: t, k => if kv.1 = k then true else dMem t k

/-- Python `data[k] = v`: update the existing entry in place, else append. -/
def dSet : RefDict → List Char → List (List Char) → RefDict
  | [], k, v => [(k, v)]
  | kv :: t, k, v => if kv.1 = k then (k, v) :: t else kv :: dSet t k v

/-- The dictionary-update block shared verbatim by every variant of
`find_citation_matches`:

    dict_value = data.get(reference, [])
    if dict_value == []: data[reference] = []
    if location not in dict_value:
        data[reference] = data.get(reference, []) + [location]
-/
def recordMatch (data : RefDict) (reference location : List Char) : RefDict :=
  let dict_value := dGet data reference
  let data1 := if dict_value = [] then dSet data reference [] else data
  if location ∈ dict_value then data1
  else dSet data1 reference (dGet data1 reference ++ [location])

/-- `find_citation_matches` from `journals/annurev.py`: a mention matches a
reference iff the bare year is a substring and every author is a substring. -/
def annurev_find_citation_matches (author_year_pairs : List AYPair)
    (full_references : List (List Char)) (data : RefDict)
    (location : List Char) : RefDict :=
  author_year_pairs.foldl
    (fun data pair =>
      full_references.foldl
        (fun data reference =>
          if pyContains reference pair.2 then
            if pair.1.all (fun author => pyContains reference author) then
              recordMatch data reference location
            else data
          else data)
        data)
    data

/-- `find_citation_matches` from `journals/aom.py` (identical to annurev's). -/
def aom_find_citation_matches (author_year_pairs : List AYPair)
    (full_references : List (List Char)) (data : RefDict)
    (location : List Char) : RefDict :=
  author_year_pairs.foldl
    (fun data pair =>
      full_references.foldl
        (fun data reference =>
          if pyContains reference pair.2 then
            if pair.1.all (fun author => pyContains reference author) then
              recordMatch data reference location
            else data
          else data)
        data)
    data

/-- The effective `find_citation_matches` of `journals/personnel.py`: the file
defines the function twice and Python keeps the second definition (line 169),
which tests the bare year `year in reference`, not `f"({year})"`; its
`has_matched` flag only drives a `print` and never changes `data`. -/
def personnel_find_citation_matches (author_year_pairs : List AYPair)
    (full_references : List (List Char)) (data : RefDict)
    (location : List Char) : RefDict :=
  author_year_pairs.foldl
    (fun data pair =>
      full_references.foldl
        (fun data reference =>
          if pyContains reference pair.2 then
            if pair.1.all (fun author => pyContains reference author) then
              recordMatch data reference location
            else data
          else data)
        data)
    data

/-- `find_citation_matches` from `journals/orgsci.py` (and `orgsci.py`): the
year must occur as the literal text `(year)` in the reference. -/
def orgsci_find_citation_matches (author_year_pairs : List AYPair)
    (full_references : List (List Char)) (data : RefDict)
    (location : List Char) : RefDict :=
  author_year_pairs.foldl
    (fun data pair =>
      full_references.foldl
        (fun data reference =>
          if pyContains reference ('(' :: pair.2 ++ [')']) then
            if pair.1.all (fun author => pyContains reference author) then
              recordMatch data reference location
            else data
          else data)
        data)
    data

/-- `find_citation_matches` from `journals/jom.py`: like annurev's but with
guards rejecting the empty year and empty author strings. -/
def jom_find_citation_matches (author_year_pairs : List AYPair)
    (full_references : List (List Char)) (data : RefDict)
    (location : List Char) : RefDict :=
  author_year_pairs.foldl
    (fun data pair =>
      full_references.foldl
        (fun data reference =>
          if pyContains reference pair.2 && !pair.2.isEmpty then
            if pair.1.all
                (fun author => pyContains reference author && !author.isEmpty) then
              recordMatch data reference location
            else data
          else data)
        data)
    data

/-! ### Dictionary lemmas -/

theorem dGet_dSet_self (d : RefDict) (k : List Char) (v : List (List Char)) :
    dGet (dSet d k v) k = v := by
  induction d with
  | nil => simp [dGet, dSet]
  | cons kv t ih =>
    by_cases h : kv.1 = k
    · simp [dSet, dGet, h]
    · simp [dSet, dGet, h, ih]

theorem dGet_dSet_ne (d : RefDict) (k k' : List Char) (v : List (List Char))
    (h : k' ≠ k) : dGet (dSet d k v) k' = dGet d k' := by
  induction d with
  | nil => simp [dGet, dSet, Ne.symm h]
  | cons kv t ih =>
    by_cases hk : kv.1 = k
    · simp [dSet, dGet, hk, Ne.symm h]
    · simp only [dSet, hk, if_false, dGet]
      by_cases hk' : kv.1 = k' <;> simp [hk', ih]

theorem dMem_dSet_mono (d : RefDict) (k k' : List Char) (v : List (List Char))
    (h : dMem d k' = true) : dMem (dSet d k v) k' = true := by
  induction d with
  | nil => simp [dMem] at h
  | cons kv t ih =>
    simp only [dMem] at h
    by_cases hk : kv.1 = k
    · simp only [dSet, hk, if_true]
      by_cases hkk' : k = k'
      · simp [dMem, hkk']
      · simp only [dMem, hkk', if_false]
        rw [hk] at h
        simpa [hkk'] using h
    · simp only [dSet, hk, if_false, dMem]
      by_cases hkk' : kv.1 = k'
      · simp [hkk']
      · simp only [hkk', if_false] at h ⊢
        exact ih h

/-- Full characterisation of `recordMatch` through `dGet`. -/
theorem dGet_recordMatch (d : RefDict) (r loc k : List Char) :
    dGet (recordMatch d r loc) k
      = if k = r then
          (if loc ∈ dGet d r then dGet d r else dGet d r ++ [loc])
        else dGet d k := by
  simp only [recordMatch]
  by_cases hin : loc ∈ dGet d r
  · have hemp : ¬dGet d r = [] := fun e => by simp [e] at hin
    rw [if_pos hin, if_neg hemp]
    by_cases hk : k = r
    · subst hk
      rw [if_pos rfl, if_pos hin]
    · rw [if_neg hk]
  · rw [if_neg hin]
    by_cases hemp : dGet d r = []
    · rw [if_pos hemp]
      by_cases hk : k = r
      · subst hk
        rw [if_pos rfl, if_neg hin, dGet_dSet_self, dGet_dSet_self, hemp]
      · rw [if_neg hk, dGet_dSet_ne _ _ _ _ hk, dGet_dSet_ne _ _ _ _ hk]
    · rw [if_neg hemp]
      by_cases hk : k = r
      · subst hk
        rw [if_pos rfl, if_neg hin, dGet_dSet_self]
      · rw [if_neg hk, dGet_dSet_ne _ _ _ _ hk]

theorem dMem_recordMatch_mono (d : RefDict) (r loc k : List Char)
    (h : dMem d k = true) : dMem (recordMatch d r loc) k = true := by
  simp only [recordMatch]
  by_cases hin : loc ∈ dGet d r
  · rw [if_pos hin]
    by_cases hemp : dGet d r = []
    · rw [if_pos hemp]
      exact dMem_dSet_mono _ _ _ _ h
    · rw [if_neg hemp]
      exact h
  · rw [if_neg hin]
    by_cases hemp : dGet d r = []
    · rw [if_pos hemp]
      exact dMem_dSet_mono _ _ _ _ (dMem_dSet_mono _ _ _ _ h)
    · rw [if_neg hemp]
      exact dMem_dSet_mono _ _ _ _ h

/-! ### Fold machinery and generic matcher facts -/

/-- Invariant preservation through `List.foldl`. -/
theorem foldl_induct {β : Type} (P : RefDict → Prop)
    (step : RefDict → β → RefDict) (l : List β)
    (h : ∀ d x, x ∈ l → P d → P (step d x)) :
    ∀ d, P d → P (l.foldl step d) := by
  induction l with
  | nil => intro d hd; simpa using hd
  | cons a t ih =>
    intro d hd
    exact ih (fun d x hx => h d x (by simp [hx])) (step d a)
      (h d a (by simp) hd)

/-- The common two-level loop of every `find_citation_matches` variant,
abstracted over the year guard `g1` and the author guard `g2`. -/
def fcmGeneric (g1 g2 : AYPair → List Char → Bool) (pairs : List AYPair)
    (refs : List (List Char)) (data : RefDict) (location : List Char) : RefDict :=
  pairs.foldl
    (fun data pair =>
      refs.foldl
        (fun data reference =>
          if g1 pair reference then
            if g2 pair reference then recordMatch data reference location
            else data
          else data)
        data)
    data

theorem fcmGeneric_sound (g1 g2 : AYPair → List Char → Bool)
    (pairs : List AYPair) (refs : List (List Char)) (data : RefDict)
    (location : List Char) :
    ∀ k l, l ∈ dGet (fcmGeneric g1 g2 pairs refs data location) k →
      l ∈ dGet data k ∨
        (l = location ∧ ∃ p ∈ pairs, g1 p k = true ∧ g2 p k = true) := by
  unfold fcmGeneric
  refine foldl_induct
    (fun d => ∀ k l, l ∈ dGet d k → l ∈ dGet data k ∨
      (l = location ∧ ∃ p ∈ pairs, g1 p k = true ∧ g2 p k = true)) _ _
    ?_ data (fun k l hl => Or.inl hl)
  intro d p hp hd
  refine foldl_induct
    (fun d => ∀ k l, l ∈ dGet d k → l ∈ dGet data k ∨
      (l = location ∧ ∃ q ∈ pairs, g1 q k = true ∧ g2 q k = true)) _ _
    ?_ d hd
  intro d' r _ hd' k l hl
  by_cases h1 : g1 p r = true
  · by_cases h2 : g2 p r = true
    · rw [if_pos h1, if_pos h2, dGet_recordMatch] at hl
      by_cases hk : k = r
      · rw [if_pos hk] at hl
        subst hk
        by_cases hin : location ∈ dGet d' k
        · rw [if_pos hin] at hl
          exact hd' k l hl
        · rw [if_neg hin] at hl
          rcases List.mem_append.mp hl with h | h
          · exact hd' k l h
          · exact Or.inr ⟨by simpa using h, p, hp, h1, h2⟩
      · rw [if_neg hk] at hl
        exact hd' k l hl
    · rw [if_pos h1, if_neg h2] at hl
      exact hd' k l hl
  · rw [if_neg h1] at hl
    exact hd' k l hl

theorem fcmGeneric_nodup (g1 g2 : AYPair → List Char → Bool)
    (pairs : List AYPair) (refs : List (List Char)) (data : RefDict)
    (location : List Char) (h : ∀ k, (dGet data k).Nodup) :
    ∀ k, (dGet (fcmGeneric g1 g2 pairs refs data location) k).Nodup := by
  unfold fcmGeneric
  refine foldl_induct (fun d => ∀ k, (dGet d k).Nodup) _ _ ?_ data h
  intro d p _ hd
  refine foldl_induct (fun d => ∀ k, (dGet d k).Nodup) _ _ ?_ d hd
  intro d' r _ hd' k
  by_cases h1 : g1 p r = true
  · by_cases h2 : g2 p r = true
    · rw [if_pos h1, if_pos h2, dGet_recordMatch]
      by_cases hk : k = r
      · rw [if_pos hk]
        by_cases hin : location ∈ dGet d' r
        · rw [if_pos hin]
          exact hd' r
        · rw [if_neg hin]
          simp [List.nodup_append, hd' r, hin]
      · rw [if_neg hk]
        exact hd' k
    · rw [if_pos h1, if_neg h2]
      exact hd' k
  · rw [if_neg h1]
    exact hd' k

theorem fcmGeneric_mono (g1 g2 : AYPair → List Char → Bool)
    (pairs : List AYPair) (refs : List (List Char)) (data : RefDict)
    (location : List Char) :
    ∀ k, (dMem data k = true →
        dMem (fcmGeneric g1 g2 pairs refs data location) k = true) ∧
      ∃ w, dGet (fcmGeneric g1 g2 pairs refs data location) k
        = dGet data k ++ w := by
  unfold fcmGeneric
  refine foldl_induct
    (fun d => ∀ k, (dMem data k = true → dMem d k = true) ∧
      ∃ w, dGet d k = dGet data k ++ w) _ _ ?_ data
    (fun k => ⟨id, [], by simp⟩)
  intro d p _ hd
  refine foldl_induct
    (fun d => ∀ k, (dMem data k = true → dMem d k = true) ∧
      ∃ w, dGet d k = dGet data k ++ w) _ _ ?_ d hd
  intro d' r _ hd' k
  by_cases h1 : g1 p r = true
  · by_cases h2 : g2 p r = true
    · rw [if_pos h1, if_pos h2]
      refine ⟨fun hm => dMem_recordMatch_mono _ _ _ _ ((hd' k).1 hm), ?_⟩
      obtain ⟨w, hw⟩ := (hd' k).2
      rw [dGet_recordMatch]
      by_cases hk : k = r
      · subst hk
        by_cases hin : location ∈ dGet d' k
        · rw [if_pos rfl, if_pos hin]
          exact ⟨w, hw⟩
        · rw [if_pos rfl, if_neg hin, hw]
          exact ⟨w ++ [location], by simp⟩
      · rw [if_neg hk]
        exact ⟨w, hw⟩
    · rw [if_pos h1, if_neg h2]
      exact hd' k
  · rw [if_neg h1]
    exact hd' k

theorem annurev_fcm_eq :
    annurev_find_citation_matches
      = fcmGeneric (fun p r => pyContains r p.2)
          (fun p r => p.1.all fun author => pyContains r author) := rfl

theorem aom_fcm_eq :
    aom_find_citation_matches
      = fcmGeneric (fun p r => pyContains r p.2)
          (fun p r => p.1.all fun author => pyContains r author) := rfl

theorem personnel_fcm_eq :
    personnel_find_citation_matches
      = fcmGeneric (fun p r => pyContains r p.2)
          (fun p r => p.1.all fun author => pyContains r author) := rfl

theorem orgsci_fcm_eq :
    orgsci_find_citation_matches
      = fcmGeneric (fun p r => pyContains r ('(' :: p.2 ++ [')']))
          (fun p r => p.1.all fun author => pyContains r author) := rfl

theorem jom_fcm_eq :
    jom_find_citation_matches
      = fcmGeneric (fun p r => pyContains r p.2 && !p.2.isEmpty)
          (fun p r => p.1.all fun author =>
            pyContains r author && !author.isEmpty) := rfl

/-- C1 (amended): matcher soundness holds with the year tested as a bare
substring in the annurev variant and as the literal text `(year)` in the
orgsci variant; the personnel variant, whose file defines
`find_citation_matches` twice so that the second (bare-year) definition is
the effective one, also tests the bare year, not `(year)` as claimed.  Every
`(reference, location)` pair recorded by a call (i.e. present in the output
but possibly not in the input dictionary) comes from some author-year pair
whose year (in the variant's format) and all of whose author surnames are
substrings of the reference's raw text. -/
theorem C1_matcher_soundness :
    (∀ pairs refs data loc k l,
      l ∈ dGet (annurev_find_citation_matches pairs refs data loc) k →
      l ∈ dGet data k ∨ (l = loc ∧ ∃ p ∈ pairs,
        pyContains k p.2 = true ∧ ∀ a ∈ p.1, pyContains k a = true)) ∧
    (∀ pairs refs data loc k l,
      l ∈ dGet (personnel_find_citation_matches pairs refs data loc) k →
      l ∈ dGet data k ∨ (l = loc ∧ ∃ p ∈ pairs,
        pyContains k p.2 = true ∧ ∀ a ∈ p.1, pyContains k a = true)) ∧
    (∀ pairs refs data loc k l,
      l ∈ dGet (orgsci_find_citation_matches pairs refs data loc) k →
      l ∈ dGet data k ∨ (l = loc ∧ ∃ p ∈ pairs,
        pyContains k ('(' :: p.2 ++ [')']) = true ∧
        ∀ a ∈ p.1, pyContains k a = true)) := by
  refine ⟨?_, ?_, ?_⟩
  · intro pairs refs data loc k l hl
    rw [annurev_fcm_eq] at hl
    rcases fcmGeneric_sound _ _ pairs refs data loc k l hl
      with h | ⟨hle, p, hp, hg1, hg2⟩
    · exact Or.inl h
    · exact Or.inr ⟨hle, p, hp, hg1, fun a ha => List.all_eq_true.mp hg2 a ha⟩
  · intro pairs refs data loc k l hl
    rw [personnel_fcm_eq] at hl
    rcases fcmGeneric_sound _ _ pairs refs data loc k l hl
      with h | ⟨hle, p, hp, hg1, hg2⟩
    · exact Or.inl h
    · exact Or.inr ⟨hle, p, hp, hg1, fun a ha => List.all_eq_true.mp hg2 a ha⟩
  · intro pairs refs data loc k l hl
    rw [orgsci_fcm_eq] at hl
    rcases fcmGeneric_sound _ _ pairs refs data loc k l hl
      with h | ⟨hle, p, hp, hg1, hg2⟩
    · exact Or.inl h
    · exact Or.inr ⟨hle, p, hp, hg1, fun a ha => List.all_eq_true.mp hg2 a ha⟩

/-- Witness for C1: a concrete recorded pair in the annurev variant satisfies
the soundness disjunction. -/
theorem C1_matcher_soundness_witness :
    "Intro".toList ∈ dGet ([] : RefDict) "Smith J. 1999. X.".toList ∨
    ("Intro".toList = "Intro".toList ∧
      ∃ p ∈ [([ "Smith".toList ], "1999".toList)],
        pyContains "Smith J. 1999. X.".toList p.2 = true ∧
        ∀ a ∈ p.1, pyContains "Smith J. 1999. X.".toList a = true) :=
  C1_matcher_soundness.1 [([ "Smith".toList ], "1999".toList)]
    ["Smith J. 1999. X.".toList] [] "Intro".toList "Smith J. 1999. X.".toList
    "Intro".toList (by decide)

/-- C1 counterexample: the effective personnel `find_citation_matches` (the
second definition in `journals/personnel.py`, which shadows the first)
records a match for a reference that contains the bare year `2020` but not
the literal text `(2020)`, contradicting the claim that the personnel
variant requires the literal text `(year)` in the reference. -/
theorem C1_matcher_soundness_cex :
    personnel_find_citation_matches [([ "Smith".toList ], "2020".toList)]
        ["Smith J. 2020. Title.".toList] [] "Intro".toList
      = [("Smith J. 2020. Title.".toList, ["Intro".toList])] ∧
    pyContains "Smith J. 2020. Title.".toList "(2020)".toList = false := by
  decide

/-- C8: location dedup invariant for the jom and aom variants of
`find_citation_matches` — if every location list in the input dictionary has
no duplicates then, after a call (and hence after any sequence of calls over
all sections, third conjunct), every reference's location list still lists
each citing section at most once. -/
theorem C8_location_dedup :
    (∀ pairs refs data loc, (∀ k, (dGet data k).Nodup) →
      ∀ k, (dGet (jom_find_citation_matches pairs refs data loc) k).Nodup) ∧
    (∀ pairs refs data loc, (∀ k, (dGet data k).Nodup) →
      ∀ k, (dGet (aom_find_citation_matches pairs refs data loc) k).Nodup) ∧
    (∀ (calls : List (List AYPair × List (List Char) × List Char))
        (data : RefDict), (∀ k, (dGet data k).Nodup) →
      ∀ k, (dGet (calls.foldl
        (fun d c => jom_find_citation_matches c.1 c.2.1 d c.2.2) data) k).Nodup) := by
  have hjom : ∀ pairs refs data loc, (∀ k, (dGet data k).Nodup) →
      ∀ k, (dGet (jom_find_citation_matches pairs refs data loc) k).Nodup := by
    intro pairs refs data loc h
    rw [jom_fcm_eq]
    exact fcmGeneric_nodup _ _ pairs refs data loc h
  refine ⟨hjom, ?_, ?_⟩
  · intro pairs refs data loc h
    rw [aom_fcm_eq]
    exact fcmGeneric_nodup _ _ pairs refs data loc h
  · intro calls data h
    exact foldl_induct (fun d => ∀ k, (dGet d k).Nodup) _ calls
      (fun d c _ hd => hjom c.1 c.2.1 d c.2.2 hd) data h

/-- Witness for C8: two identical mentions of the same reference in one call
still record the section heading once, and the resulting list has no
duplicates. -/
theorem C8_location_dedup_witness :
    (dGet (jom_find_citation_matches
        [([ "Smith".toList ], "1999".toList), ([ "Smith".toList ], "1999".toList)]
        ["Smith 1999.".toList] [] "Intro".toList) "Smith 1999.".toList).Nodup :=
  C8_location_dedup.1
    [([ "Smith".toList ], "1999".toList), ([ "Smith".toList ], "1999".toList)]
    ["Smith 1999.".toList] [] "Intro".toList
    (fun _ => List.nodup_nil) "Smith 1999.".toList

/-- C10: monotonicity of the matcher accumulator for the jom and annurev
variants — every key of the input dictionary is still a key of the output,
and each key's location list in the output extends its input list on the
right (so previously recorded locations are kept in their original relative
order; the call only appends). -/
theorem C10_matcher_monotone :
    (∀ pairs refs data loc k,
      (dMem data k = true →
        dMem (jom_find_citation_matches pairs refs data loc) k = true) ∧
      ∃ w, dGet (jom_find_citation_matches pairs refs data loc) k
        = dGet data k ++ w) ∧
    (∀ pairs refs data loc k,
      (dMem data k = true →
        dMem (annurev_find_citation_matches pairs refs data loc) k = true) ∧
      ∃ w, dGet (annurev_find_citation_matches pairs refs data loc) k
        = dGet data k ++ w) := by
  constructor
  · intro pairs refs data loc k
    rw [jom_fcm_eq]
    exact fcmGeneric_mono _ _ pairs refs data loc k
  · intro pairs refs data loc k
    rw [annurev_fcm_eq]
    exact fcmGeneric_mono _ _ pairs refs data loc k

/-- Witness for C10: a pre-existing key with a pre-existing location survives
a concrete call, and its list is extended on the right. -/
theorem C10_matcher_monotone_witness :
    dMem (jom_find_citation_matches [([ "Smith".toList ], "1999".toList)]
        ["Smith 1999.".toList] [("Old ref.".toList, ["Sec1".toList])]
        "Intro".toList) "Old ref.".toList = true ∧
    ∃ w, dGet (jom_find_citation_matches [([ "Smith".toList ], "1999".toList)]
        ["Smith 1999.".toList] [("Old ref.".toList, ["Sec1".toList])]
        "Intro".toList) "Old ref.".toList
      = dGet [("Old ref.".toList, ["Sec1".toList])] "Old ref.".toList ++ w :=
  ⟨(C10_matcher_monotone.1 [([ "Smith".toList ], "1999".toList)]
      ["Smith 1999.".toList] [("Old ref.".toList, ["Sec1".toList])]
      "Intro".toList "Old ref.".toList).1 (by decide),
   (C10_matcher_monotone.1 [([ "Smith".toList ], "1999".toList)]
      ["Smith 1999.".toList] [("Old ref.".toList, ["Sec1".toList])]
      "Intro".toList "Old ref.".toList).2⟩

/-! ## Flat section builder header detection (`get_headers`) -/

/-- The ordered font map produced by `get_pre_sections` /
`structure_doc_by_size_and_font`: an insertion-ordered dict from a
`(font name, size)` key to the list of merged text runs with that key. -/
abbrev FontMap := List ((List Char × ℚ) × List (List Char))

/-- `AOM_HEADER_SIZE` from `journals/aom.py`: candidate header sizes tried in
order. -/
def AOM_HEADER_SIZE : List ℚ := [9.96, 10.0]

/-- `get_headers` from `journals/aom.py`: return `val[1:]` for the first font
entry whose size equals a candidate header size (candidates tried in order);
if no entry matches any candidate, return the empty list. -/
def aom_get_headers (fonts : FontMap) : List (List Char) :=
  match AOM_HEADER_SIZE.findSome? (fun header =>
      fonts.findSome? (fun kv =>
        if kv.1.2 = header then some (kv.2.drop 1) else none)) with
  | some v => v
  | none => []

/-- `HEADER_KEY` from `journals/joap.py::get_headers`. -/
def JOAP_HEADER_KEY : List Char × ℚ := ("Times-Bold".toList, 10)

/-- `get_headers` from `journals/joap.py`: a plain dict lookup
`fonts[HEADER_KEY]`; on `KeyError` it logs and re-raises a generic
`Exception` (there is no typed `HeaderDetectionFailed` in the repository). -/
def joap_get_headers (fonts : FontMap) : Except (List Char) (List (List Char)) :=
  match fonts.findSome? (fun kv =>
      if kv.1 = JOAP_HEADER_KEY then some kv.2 else none) with
  | some v => Except.ok v
  | none => Except.error "KeyError".toList

/-- C5 (amended): when the candidate header font sizes match zero runs,
aom's `get_headers` returns the empty list — the flat builder then proceeds
and accumulates all text under the initial header, i.e. it fails silently —
while joap's `get_headers` raises a generic `Exception` wrapping the
`KeyError`; neither surfaces a typed `HeaderDetectionFailed`, which does not
exist in the repository. -/
theorem C5_header_detection :
    (∀ fonts : FontMap, (∀ kv ∈ fonts, kv.1.2 ∉ AOM_HEADER_SIZE) →
      aom_get_headers fonts = []) ∧
    (∀ fonts : FontMap, (∀ kv ∈ fonts, kv.1 ≠ JOAP_HEADER_KEY) →
      joap_get_headers fonts = Except.error "KeyError".toList) := by
  constructor
  · intro fonts h
    have hin : ∀ header ∈ AOM_HEADER_SIZE,
        fonts.findSome? (fun kv =>
          if kv.1.2 = header then some (kv.2.drop 1) else none) = none := by
      intro header hh
      rw [List.findSome?_eq_none_iff]
      intro kv hkv
      rw [if_neg]
      intro e
      exact h kv hkv (e ▸ hh)
    unfold aom_get_headers
    rw [List.findSome?_eq_none_iff.mpr hin]
  · intro fonts h
    unfold joap_get_headers
    rw [List.findSome?_eq_none_iff.mpr
      (fun kv hkv => if_neg (h kv hkv))]

/-- Witness for C5: a concrete font map with no candidate header size yields
an empty header list from aom and a KeyError-backed generic error from joap. -/
theorem C5_header_detection_witness :
    aom_get_headers [(("FontB".toList, 9), ["y".toList])] = [] ∧
    joap_get_headers [(("FontB".toList, 9), ["y".toList])]
      = Except.error "KeyError".toList :=
  ⟨C5_header_detection.1 [(("FontB".toList, 9), ["y".toList])]
    (by intro kv hkv; simp at hkv; rw [hkv]; norm_num [AOM_HEADER_SIZE]),
   C5_header_detection.2 [(("FontB".toList, 9), ["y".toList])]
    (by
      intro kv hkv
      simp at hkv
      rw [hkv]
      simp only [JOAP_HEADER_KEY, ne_eq, Prod.mk.injEq, not_and]
      intro _
      norm_num)⟩

/-- C5 counterexample: with a document whose runs match neither candidate
header size, aom's `get_headers` returns `[]` — no typed failure is raised
and the flat builder silently produces a document with no detected headers,
contradicting the claim. -/
theorem C5_header_detection_cex :
    aom_get_headers [(("FontA".toList, 8), ["x".toList])] = [] := by
  norm_num [aom_get_headers, AOM_HEADER_SIZE, List.findSome?_cons]

/-! ## Section tree (`section.py`) and the font-size-nested builder -/

/-- `Section` from `section.py`.  Nodes live in an arena (a list indexed by
creation order); `parent` and `children` hold arena indices, mirroring the
Python object graph.  `ovr` is pure instrumentation recording whether the
node was created by the manual override branch of `get_sections`; it never
influences the computation. -/
structure Section where
  content : List Char
  size : ℚ
  parent : Option Nat
  children : List Nat
  ovr : Bool
  deriving DecidableEq, Repr

/-- Replace the node at index `i` by `f` of it (mutation of one object). -/
def updAt : List Section → Nat → (Section → Section) → List Section
  | [], _, _ => []
  | n :: t, 0, f => f n :: t
  | n :: t, i + 1, f => n :: updAt t i f

/-- The walk `while curr.size <= size: curr = curr.parent` of
`Section.backtrack_add`; `none` models the `AttributeError` Python raises
when the walk runs off the root (`None.parent`).  The fuel argument bounds
the walk; `nodes.length` steps always suffice for arenas built by
`get_sections`, whose parent pointers decrease. -/
def walkUp (nodes : List Section) : Nat → Nat → ℚ → Option Nat
  | 0, _, _ => none
  | fuel + 1, i, sz =>
    match nodes[i]? with
    | none => none
    | some n =>
      if n.size ≤ sz then
        match n.parent with
        | none => none
        | some p => walkUp nodes fuel p sz
      else some i

/-- The chain from node `i` to the root following `parent` pointers,
including `i` itself (the candidates inspected by the walk). -/
def chainL (nodes : List Section) : Nat → Nat → List Nat
  | 0, _ => []
  | fuel + 1, i =>
    match nodes[i]? with
    | none => []
    | some n =>
      i :: (match n.parent with
            | none => []
            | some p => chainL nodes fuel p)

/-- Whether node `j` has size strictly greater than `sz` (the walk's stop
condition). -/
def sizeBig (nodes : List Section) (sz : ℚ) (j : Nat) : Bool :=
  match nodes[j]? with
  | some n => sz < n.size
  | none => false

/-- `Section.backtrack_add` from `section.py`: walk up from `s` to the first
node whose size exceeds `size`, create a new `Section(content, size)`, attach
it as that ancestor's last child, set its parent, and return it (here: the
updated arena and the new node's index). -/
def backtrack_add (nodes : List Section) (s : Nat) (content : List Char)
    (size : ℚ) : Option (List Section × Nat) :=
  match walkUp nodes nodes.length s size with
  | none => none
  | some t =>
    some (updAt nodes t
            (fun n => { n with children := n.children ++ [nodes.length] })
          ++ [⟨content, size, some t, [], false⟩], nodes.length)

/-- The builder state of `get_sections` in `journals/orgsci.py`:
the arena (index 0 is `main_section`, the sentinel root of size 100),
`curr_section`, and `prev_size`. -/
structure BuildState where
  nodes : List Section
  curr : Nat
  prevSize : ℚ
  deriving DecidableEq, Repr

/-- The initial state: `main_section = Section("", 100)`, `prev_size = 100`. -/
def initState : BuildState :=
  ⟨[⟨[], 100, none, [], false⟩], 0, 100⟩

/-- The override keywords of `journals/orgsci.py::get_sections`. -/
def overrideKeywords : List (List Char) :=
  ["Acknowledgements".toList, "References".toList, "Appendix".toList,
   "Endnotes".toList]

/-- One iteration of the run loop of `journals/orgsci.py::get_sections` for a
text run with (already rounded) size `curSize`.  `none` models the uncaught
exceptions of the corresponding Python paths (`children[-1]` on an empty
child list, or `backtrack_add` walking off the root). -/
def orgsci_get_sections_step (st : BuildState) (text : List Char)
    (curSize : ℚ) : Option BuildState :=
  if pyStrip text ∈ overrideKeywords then
    match st.nodes[0]? with
    | none => none
    | some root =>
      match root.children.getLast? with
      | none => none
      | some c1 =>
        match st.nodes[c1]? with
        | none => none
        | some n1 =>
          match n1.children.getLast? with
          | none => none
          | some c2 =>
            let idx := st.nodes.length
            some ⟨updAt st.nodes c2
                    (fun n => { n with children := n.children ++ [idx] })
                  ++ [⟨text, curSize, some c2, [], true⟩], idx, curSize⟩
  else if st.prevSize < curSize then
    match backtrack_add st.nodes st.curr text curSize with
    | none => none
    | some (nodes, idx) => some ⟨nodes, idx, curSize⟩
  else if curSize = st.prevSize then
    some ⟨updAt st.nodes st.curr
            (fun n => { n with content := n.content ++ ' ' :: text }),
          st.curr, st.prevSize⟩
  else
    let idx := st.nodes.length
    some ⟨updAt st.nodes st.curr
            (fun n => { n with children := n.children ++ [idx] })
          ++ [⟨text, curSize, some st.curr, [], false⟩], idx, curSize⟩

/-- `get_sections` from `journals/orgsci.py`, as the fold of the step over
the document's run sequence (the tokenisation itself is the out-of-scope PDF
collaborator; runs carry the text and the rounded font size). -/
def orgsci_get_sections_build (runs : List (List Char × ℚ)) : Option BuildState :=
  runs.foldlM (fun st r => orgsci_get_sections_step st r.1 r.2) initState

/-- The per-node property asserted by the tree-invariant claim for a
non-root, non-override node `i`: its size is strictly smaller than every
ancestor's size along the path to the root. -/
def pathStrict (st : BuildState) (i : Nat) : Bool :=
  match st.nodes[i]? with
  | none => true
  | some n =>
    (chainL st.nodes st.nodes.length i).tail.all fun j =>
      match st.nodes[j]? with
      | some m => n.size < m.size
      | none => true

/-! ### Arena access lemmas -/

theorem updAt_length (ns : List Section) (i : Nat) (f : Section → Section) :
    (updAt ns i f).length = ns.length := by
  induction ns generalizing i with
  | nil => rfl
  | cons n t ih =>
    cases i with
    | zero => rfl
    | succ j => simpa [updAt] using ih j

theorem updAt_get_self (ns : List Section) (i : Nat) (f : Section → Section) :
    (updAt ns i f)[i]? = (ns[i]?).map f := by
  induction ns generalizing i with
  | nil => simp [updAt]
  | cons n t ih =>
    cases i with
    | zero => simp [updAt]
    | succ j => simpa [updAt] using ih j

theorem updAt_get_ne (ns : List Section) (i j : Nat) (f : Section → Section)
    (h : j ≠ i) : (updAt ns i f)[j]? = ns[j]? := by
  induction ns generalizing i j with
  | nil => simp [updAt]
  | cons n t ih =>
    cases i with
    | zero =>
      cases j with
      | zero => exact absurd rfl h
      | succ j' => simp [updAt]
    | succ i' =>
      cases j with
      | zero => simp [updAt]
      | succ j' => simpa [updAt] using ih i' j' (fun e => h (by rw [e]))

theorem walkUp_big {nodes : List Section} {sz : ℚ} :
    ∀ {fuel i t : Nat}, walkUp nodes fuel i sz = some t →
      ∃ n, nodes[t]? = some n ∧ sz < n.size := by
  intro fuel
  induction fuel with
  | zero => intro i t h; simp [walkUp] at h
  | succ fuel ih =>
    intro i t h
    rw [walkUp] at h
    cases e : nodes[i]? with
    | none => simp [e] at h
    | some n =>
      simp only [e] at h
      by_cases hle : n.size ≤ sz
      · rw [if_pos hle] at h
        cases ep : n.parent with
        | none => simp [ep] at h
        | some p =>
          simp only [ep] at h
          exact ih h
      · rw [if_neg hle] at h
        cases h
        exact ⟨n, e, lt_of_not_le hle⟩

/-- The backtracking walk visits the chain in order and stops at the first
node whose size exceeds `sz`. -/
theorem walkUp_eq_find (nodes : List Section) (sz : ℚ) :
    ∀ fuel i, walkUp nodes fuel i sz
      = (chainL nodes fuel i).find? (sizeBig nodes sz) := by
  intro fuel
  induction fuel with
  | zero => intro i; rfl
  | succ fuel ih =>
    intro i
    rw [walkUp, chainL]
    cases e : nodes[i]? with
    | none => rfl
    | some n =>
      dsimp only
      by_cases hle : n.size ≤ sz
      · rw [if_pos hle]
        have hbig : sizeBig nodes sz i = false := by
          simp [sizeBig, e, not_lt.mpr hle]
        rw [List.find?_cons_of_neg _ (by simp [hbig])]
        cases ep : n.parent with
        | none => rfl
        | some p =>
          dsimp only
          exact ih p
      · rw [if_neg hle]
        have hbig : sizeBig nodes sz i = true := by
          simp [sizeBig, e, lt_of_not_le hle]
        rw [List.find?_cons_of_pos _ hbig]

/-- C9: whenever some node on the chain from `s` to the root (including `s`
itself) has size strictly greater than the given size, `backtrack_add`
returns the new section: it is created with the given content and size, its
parent is set to the first chain node `t` whose size exceeds the given size
(all nodes with size less than or equal are skipped), it is appended as `t`'s
last child, and every other node is left untouched. -/
theorem C9_backtrack_add (nodes : List Section) (s : Nat) (content : List Char)
    (size : ℚ)
    (h : ∃ j ∈ chainL nodes nodes.length s, sizeBig nodes size j = true) :
    ∃ t tn,
      (chainL nodes nodes.length s).find? (sizeBig nodes size) = some t ∧
      nodes[t]? = some tn ∧
      backtrack_add nodes s content size
        = some (updAt nodes t
                  (fun n => { n with children := n.children ++ [nodes.length] })
                ++ [⟨content, size, some t, [], false⟩], nodes.length) ∧
      (updAt nodes t
          (fun n => { n with children := n.children ++ [nodes.length] })
        ++ [⟨content, size, some t, [], false⟩])[nodes.length]?
        = some ⟨content, size, some t, [], false⟩ ∧
      (updAt nodes t
          (fun n => { n with children := n.children ++ [nodes.length] })
        ++ [⟨content, size, some t, [], false⟩])[t]?
        = some { tn with children := tn.children ++ [nodes.length] } ∧
      ∀ j, j ≠ t → j ≠ nodes.length →
        (updAt nodes t
            (fun n => { n with children := n.children ++ [nodes.length] })
          ++ [⟨content, size, some t, [], false⟩])[j]? = nodes[j]? := by
  have hsome : ((chainL nodes nodes.length s).find? (sizeBig nodes size)).isSome := by
    rw [List.find?_isSome]
    exact h
  obtain ⟨t, ht⟩ := Option.isSome_iff_exists.mp hsome
  have hw : walkUp nodes nodes.length s size = some t := by
    rw [walkUp_eq_find, ht]
  obtain ⟨tn, htn, _⟩ := walkUp_big hw
  have htlen : t < nodes.length := by
    by_contra hge
    rw [List.getElem?_eq_none (le_of_not_lt hge)] at htn
    exact absurd htn (by simp)
  refine ⟨t, tn, ht, htn, ?_, ?_, ?_, ?_⟩
  · rw [backtrack_add, hw]
  · rw [List.getElem?_append_right (by rw [updAt_length])]
    simp [updAt_length]
  · rw [List.getElem?_append_left (by rw [updAt_length]; exact htlen),
      updAt_get_self, htn]
    rfl
  · intro j hjt hjlen
    rcases lt_or_ge j nodes.length with hj | hj
    · rw [List.getElem?_append_left (by rw [updAt_length]; exact hj),
        updAt_get_ne _ _ _ _ hjt]
    · have h1 : ((updAt nodes t
            (fun n => { n with children := n.children ++ [nodes.length] }))
          ++ [(⟨content, size, some t, [], false⟩ : Section)]).length ≤ j := by
        simp only [List.length_append, updAt_length, List.length_cons,
          List.length_nil]
        omega
      rw [List.getElem?_eq_none h1, List.getElem?_eq_none hj]

/-! ### The builder's structural invariants (claim C4) -/

theorem get_some_lt {ns : List Section} {i : Nat} {x : Section}
    (h : ns[i]? = some x) : i < ns.length := by
  by_contra hge
  rw [List.getElem?_eq_none (le_of_not_lt hge)] at h
  exact absurd h (by simp)

theorem get_append_len (ns : List Section) (k : Nat) (f : Section → Section)
    (new : Section) : (updAt ns k f ++ [new])[ns.length]? = some new := by
  rw [List.getElem?_append_right (by rw [updAt_length])]
  simp [updAt_length]

/-- Looking up a node after a one-node mutation: you get the original or the
mutated original. -/
theorem get_upd {ns : List Section} {k : Nat} {f : Section → Section}
    {j : Nat} {m : Section} (hj : (updAt ns k f)[j]? = some m) :
    ∃ m0, ns[j]? = some m0 ∧ (m = m0 ∨ m = f m0) := by
  by_cases hk : j = k
  · subst hk
    rw [updAt_get_self] at hj
    cases e : ns[j]? with
    | none => rw [e] at hj; simp at hj
    | some m0 =>
      rw [e] at hj
      simp only [Option.map_some'] at hj
      exact ⟨m0, rfl, Or.inr (by injection hj with h; exact h.symm)⟩
  · rw [updAt_get_ne _ _ _ _ hk] at hj
    exact ⟨m, hj, Or.inl rfl⟩

/-- Looking up a node after a one-node mutation followed by an append: you
get the appended node, or a possibly-mutated original. -/
theorem get_extend {ns : List Section} {k : Nat} {f : Section → Section}
    {new : Section} {j : Nat} {m : Section}
    (hj : (updAt ns k f ++ [new])[j]? = some m) :
    (j = ns.length ∧ m = new) ∨
    ∃ m0, ns[j]? = some m0 ∧ (m = m0 ∨ m = f m0) := by
  rcases lt_or_ge j ns.length with h | h
  · right
    rw [List.getElem?_append_left (by rw [updAt_length]; exact h)] at hj
    exact get_upd hj
  · left
    have hlen : j = ns.length := by
      rcases eq_or_lt_of_le h with he | hlt

      · exact he.symm
      · exfalso
        have h1 : (updAt ns k f ++ [new]).length ≤ j := by
          simp only [List.length_append, updAt_length, List.length_cons,
            List.length_nil]
          omega
        rw [List.getElem?_eq_none h1] at hj
        exact absurd hj (by simp)
    subst hlen
    rw [get_append_len] at hj
    exact ⟨rfl, by injection hj with h; exact h.symm⟩

/-- Parent pointers always point at an earlier arena slot (creation order). -/
abbrev ParentsLt (ns : List Section) : Prop :=
  ∀ (i : Nat) (n : Section) (p : Nat),
    ns[i]? = some n → n.parent = some p → p < i

/-- Child lists only hold valid arena indices. -/
abbrev ChildrenLt (ns : List Section) : Prop :=
  ∀ (i : Nat) (n : Section), ns[i]? = some n → ∀ c ∈ n.children, c < ns.length

/-- The amended tree invariant: every non-override node with a parent is
strictly smaller than that parent. -/
abbrev ParentStrict (ns : List Section) : Prop :=
  ∀ (i : Nat) (n : Section) (p : Nat) (pn : Section),
    ns[i]? = some n → n.ovr = false → n.parent = some p →
    ns[p]? = some pn → n.size < pn.size

/-- The full builder invariant: well-formed pointers, the parent-strict size
property, and `prev_size = curr_section.size`. -/
abbrev InvB (st : BuildState) : Prop :=
  ParentsLt st.nodes ∧ ChildrenLt st.nodes ∧ ParentStrict st.nodes ∧
  ∃ cn, st.nodes[st.curr]? = some cn ∧ cn.size = st.prevSize

theorem ParentsLt_extend {ns : List Section} {k : Nat} {f : Section → Section}
    (hf : ∀ n, (f n).parent = n.parent) {new : Section}
    (hW : ParentsLt ns) (hnewpar : ∀ p, new.parent = some p → p < ns.length) :
    ParentsLt (updAt ns k f ++ [new]) := by
  intro i n p hi hp
  rcases get_extend hi with ⟨rfl, rfl⟩ | ⟨m0, hm0, hm⟩
  · exact hnewpar p hp
  · have hp0 : m0.parent = some p := by
      rcases hm with h | h
      · rw [h] at hp; exact hp
      · rw [h] at hp; rw [← hf m0]; exact hp
    exact hW i m0 p hm0 hp0

theorem ChildrenLt_extend {ns : List Section} {k : Nat} {f : Section → Section}
    (hfc : ∀ n, ∀ c ∈ (f n).children, c ∈ n.children ∨ c = ns.length)
    {new : Section} (hW : ChildrenLt ns)
    (hnewch : ∀ c ∈ new.children, c < ns.length + 1) :
    ChildrenLt (updAt ns k f ++ [new]) := by
  intro i n hi c hc
  have hlen : (updAt ns k f ++ [new]).length = ns.length + 1 := by
    simp [updAt_length]
  rw [hlen]
  rcases get_extend hi with ⟨rfl, rfl⟩ | ⟨m0, hm0, hm⟩
  · exact hnewch c hc
  · rcases hm with h | h
    · rw [h] at hc
      exact Nat.lt_succ_of_lt (hW i m0 hm0 c hc)
    · rw [h] at hc
      rcases hfc m0 c hc with h2 | rfl
      · exact Nat.lt_succ_of_lt (hW i m0 hm0 c h2)
      · exact Nat.lt_succ_self _

theorem ParentStrict_extend {ns : List Section} {k : Nat} {f : Section → Section}
    (hf : ∀ n, (f n).size = n.size ∧ (f n).parent = n.parent ∧ (f n).ovr = n.ovr)
    {new : Section} (hPar : ParentsLt ns) (hP : ParentStrict ns)
    (hnewpar : ∀ p, new.parent = some p → p < ns.length)
    (hnew : new.ovr = false → ∀ (p : Nat) (pn : Section),
      new.parent = some p → ns[p]? = some pn → new.size < pn.size) :
    ParentStrict (updAt ns k f ++ [new]) := by
  intro i n p pn hi hovr hpar hp
  rcases get_extend hi with ⟨rfl, hn⟩ | ⟨m0, hm0, hm⟩
  · rw [hn] at hovr hpar ⊢
    have hplt : p < ns.length := hnewpar p hpar
    rcases get_extend hp with ⟨rfl, _⟩ | ⟨pn0, hpn0, hpn⟩
    · omega
    · have hbase : new.size < pn0.size := hnew hovr p pn0 hpar hpn0
      have hpns : pn.size = pn0.size := by
        rcases hpn with h | h
        · rw [h]
        · rw [h]; exact (hf pn0).1
      rw [hpns]
      exact hbase
  · have hms : n.size = m0.size ∧ n.parent = m0.parent ∧ n.ovr = m0.ovr := by
      rcases hm with h | h
      · rw [h]; exact ⟨rfl, rfl, rfl⟩
      · rw [h]; exact hf m0
    have hpar0 : m0.parent = some p := by rw [← hms.2.1]; exact hpar
    have hplt : p < i := hPar i m0 p hm0 hpar0
    have hilt : i < ns.length := get_some_lt hm0
    rcases get_extend hp with ⟨rfl, _⟩ | ⟨pn0, hpn0, hpn⟩
    · omega
    · have hbase : m0.size < pn0.size :=
        hP i m0 p pn0 hm0 (by rw [← hms.2.2]; exact hovr) hpar0 hpn0
      have hpns : pn.size = pn0.size := by
        rcases hpn with h | h
        · rw [h]
        · rw [h]; exact (hf pn0).1
      rw [hms.1, hpns]
      exact hbase

/-- Invariant preservation for the in-place `extend` branch (no node is
appended). -/
theorem InvB_upd_content {st : BuildState} {text : List Char}
    (hI : InvB st) :
    InvB ⟨updAt st.nodes st.curr
      (fun n => { n with content := n.content ++ ' ' :: text }),
      st.curr, st.prevSize⟩ := by
  obtain ⟨hPar, hCh, hP, cn, hcn, hsz⟩ := hI
  refine ⟨?_, ?_, ?_, ?_⟩
  · intro i n p hi hp
    obtain ⟨m0, hm0, hm⟩ := get_upd hi
    have hp0 : m0.parent = some p := by
      rcases hm with h | h <;> rw [h] at hp <;> exact hp
    exact hPar i m0 p hm0 hp0
  · intro i n hi c hc
    rw [updAt_length]
    obtain ⟨m0, hm0, hm⟩ := get_upd hi
    have hc0 : c ∈ m0.children := by
      rcases hm with h | h <;> rw [h] at hc <;> exact hc
    exact hCh i m0 hm0 c hc0
  · intro i n p pn hi hovr hpar hp
    obtain ⟨m0, hm0, hm⟩ := get_upd hi
    obtain ⟨pn0, hpn0, hpn⟩ := get_upd hp
    have hms : n.size = m0.size ∧ n.parent = m0.parent ∧ n.ovr = m0.ovr := by
      rcases hm with h | h
      · rw [h]; exact ⟨rfl, rfl, rfl⟩
      · rw [h]; exact ⟨rfl, rfl, rfl⟩
    have hpns : pn.size = pn0.size := by
      rcases hpn with h | h <;> rw [h]
    rw [hms.1, hpns]
    exact hP i m0 p pn0 hm0 (by rw [← hms.2.2]; exact hovr)
      (by rw [← hms.2.1]; exact hpar) hpn0
  · refine ⟨{ cn with content := cn.content ++ ' ' :: text }, ?_, hsz⟩
    rw [updAt_get_self, hcn]
    rfl

/-- Every step of the orgsci builder preserves the invariant. -/
theorem orgsci_step_inv {st st' : BuildState} {text : List Char} {curSize : ℚ}
    (h : orgsci_get_sections_step st text curSize = some st') (hI : InvB st) :
    InvB st' := by
  obtain ⟨hPar, hCh, hP, cn, hcn, hsz⟩ := hI
  rw [orgsci_get_sections_step] at h
  by_cases hov : pyStrip text ∈ overrideKeywords
  · rw [if_pos hov] at h
    cases e0 : st.nodes[0]? with
    | none => simp only [e0] at h; exact absurd h (by simp)
    | some root =>
      simp only [e0] at h
      cases e1 : root.children.getLast? with
      | none => simp only [e1] at h; exact absurd h (by simp)
      | some c1 =>
        simp only [e1] at h
        cases e2 : st.nodes[c1]? with
        | none => simp only [e2] at h; exact absurd h (by simp)
        | some n1 =>
          simp only [e2] at h
          cases e3 : n1.children.getLast? with
          | none => simp only [e3] at h; exact absurd h (by simp)
          | some c2 =>
            simp only [e3] at h
            have hc2lt : c2 < st.nodes.length :=
              hCh c1 n1 e2 c2 (List.mem_of_getLast?_eq_some e3)
            injection h with h
            rw [← h]
            refine ⟨?_, ?_, ?_, ?_⟩
            · refine ParentsLt_extend ?_ hPar ?_
              · intro n
                rfl
              · intro p hp
                injection hp with hp
                omega
            · refine ChildrenLt_extend ?_ hCh ?_
              · intro n c hc
                rcases List.mem_append.mp hc with h2 | h2
                · exact Or.inl h2
                · exact Or.inr (by simpa using h2)
              · intro c hc
                exact absurd hc (by simp)
            · refine ParentStrict_extend ?_ hPar hP ?_ ?_
              · intro n
                exact ⟨rfl, rfl, rfl⟩
              · intro p hp
                injection hp with hp
                omega
              · intro hovr
                exact absurd hovr (by simp)
            · exact ⟨_, get_append_len _ _ _ _, rfl⟩
  · rw [if_neg hov] at h
    by_cases hgt : st.prevSize < curSize
    · rw [if_pos hgt] at h
      cases eb : backtrack_add st.nodes st.curr text curSize with
      | none => simp only [eb] at h; exact absurd h (by simp)
      | some pr =>
        obtain ⟨nodes2, idx⟩ := pr
        simp only [eb] at h
        rw [backtrack_add] at eb
        cases ew : walkUp st.nodes st.nodes.length st.curr curSize with
        | none => simp only [ew] at eb; exact absurd eb (by simp)
        | some t =>
          simp only [ew] at eb
          obtain ⟨tn, htn, htb⟩ := walkUp_big ew
          have htlt : t < st.nodes.length := get_some_lt htn
          injection eb with eb
          rw [Prod.mk.injEq] at eb
          obtain ⟨eb1, eb2⟩ := eb
          injection h with h
          rw [← h, ← eb1, ← eb2]
          refine ⟨?_, ?_, ?_, ?_⟩
          · refine ParentsLt_extend ?_ hPar ?_
            · intro n
              rfl
            · intro p hp
              injection hp with hp
              omega
          · refine ChildrenLt_extend ?_ hCh ?_
            · intro n c hc
              rcases List.mem_append.mp hc with h2 | h2
              · exact Or.inl h2
              · exact Or.inr (by simpa using h2)
            · intro c hc
              exact absurd hc (by simp)
          · refine ParentStrict_extend ?_ hPar hP ?_ ?_
            · intro n
              exact ⟨rfl, rfl, rfl⟩
            · intro p hp
              injection hp with hp
              omega
            · intro _ p pn hp hpn
              injection hp with hp
              rw [← hp] at hpn
              rw [htn] at hpn
              injection hpn with hpn
              rw [← hpn]
              exact htb
          · exact ⟨_, get_append_len _ _ _ _, rfl⟩
    · rw [if_neg hgt] at h
      by_cases heq : curSize = st.prevSize
      · rw [if_pos heq] at h
        injection h with h
        rw [← h]
        exact InvB_upd_content ⟨hPar, hCh, hP, cn, hcn, hsz⟩
      · rw [if_neg heq] at h
        injection h with h
        rw [← h]
        have hclt : st.curr < st.nodes.length := get_some_lt hcn
        have hlt : curSize < st.prevSize :=
          lt_of_le_of_ne (not_lt.mp hgt) heq
        refine ⟨?_, ?_, ?_, ?_⟩
        · refine ParentsLt_extend ?_ hPar ?_
          · intro n
            rfl
          · intro p hp
            injection hp with hp
            omega
        · refine ChildrenLt_extend ?_ hCh ?_
          · intro n c hc
            rcases List.mem_append.mp hc with h2 | h2
            · exact Or.inl h2
            · exact Or.inr (by simpa using h2)
          · intro c hc
            exact absurd hc (by simp)
        · refine ParentStrict_extend ?_ hPar hP ?_ ?_
          · intro n
            exact ⟨rfl, rfl, rfl⟩
          · intro p hp
            injection hp with hp
            omega
          · intro _ p pn hp hpn
            injection hp with hp
            rw [← hp] at hpn
            rw [hcn] at hpn
            injection hpn with hpn
            rw [← hpn, hsz]
            exact hlt
        · exact ⟨_, get_append_len _ _ _ _, rfl⟩

theorem initState_inv : InvB initState := by
  refine ⟨?_, ?_, ?_, ⟨⟨[], 100, none, [], false⟩, rfl, rfl⟩⟩
  · intro i n p hi hp
    cases i with
    | zero =>
      simp only [initState] at hi
      injection hi with hi
      rw [← hi] at hp
      exact absurd hp (by simp)
    | succ j => simp [initState] at hi
  · intro i n hi c hc
    cases i with
    | zero =>
      simp only [initState] at hi
      injection hi with hi
      rw [← hi] at hc
      exact absurd hc (by simp)
    | succ j => simp [initState] at hi
  · intro i n p pn hi hovr hp hpn
    cases i with
    | zero =>
      simp only [initState] at hi
      injection hi with hi
      rw [← hi] at hp
      exact absurd hp (by simp)
    | succ j => simp [initState] at hi

/-- Invariant preservation through `List.foldlM` over `Option`. -/
theorem foldlM_option_induct {σ β : Type} (P : σ → Prop)
    (step : σ → β → Option σ)
    (h : ∀ s x s2, step s x = some s2 → P s → P s2) :
    ∀ (l : List β) (s s2 : σ), List.foldlM step s l = some s2 → P s → P s2 := by
  intro l
  induction l with
  | nil =>
    intro s s2 e hs
    simp only [List.foldlM_nil] at e
    injection e with e
    rwa [← e]
  | cons a t ih =>
    intro s s2 e hs
    simp only [List.foldlM_cons] at e
    rcases Option.bind_eq_some.mp e with ⟨s1, e1, e2⟩
    exact ih s1 s2 e2 (h s a s1 e1 hs)

/-- The final state of the builder on the C4 witness run sequence. -/
def C4witState : BuildState :=
  ⟨[⟨[], 100, none, [1], false⟩,
    ⟨"A".toList, 50, some 0, [2], false⟩,
    ⟨"B".toList, 10, some 1, [], false⟩], 2, 10⟩

/-- The final state of the builder on the C4 counterexample run sequence. -/
def C4cexState : BuildState :=
  ⟨[⟨[], 100, none, [1], false⟩,
    ⟨"A".toList, 50, some 0, [2], false⟩,
    ⟨"B".toList, 10, some 1, [3], false⟩,
    ⟨"References".toList, 40, some 2, [4], true⟩,
    ⟨"C".toList, 20, some 3, [], false⟩], 4, 20⟩

/-- C4 (amended): after the font-size-nested builder processes any run
sequence, every section other than the sentinel root that was not created by
the override-keyword branch has font size strictly smaller than its parent's
font size.  Consequently sizes increase strictly along any ancestor path as
long as no override-created section is crossed; beyond an override-created
ancestor the claimed whole-path comparison can fail (see the
counterexample). -/
theorem C4_tree_invariant (runs : List (List Char × ℚ)) (st : BuildState)
    (h : orgsci_get_sections_build runs = some st) :
    ∀ (i : Nat) (n : Section) (p : Nat) (pn : Section),
      st.nodes[i]? = some n → n.ovr = false → n.parent = some p →
      st.nodes[p]? = some pn → n.size < pn.size := by
  have hI : InvB st :=
    foldlM_option_induct InvB _
      (fun s x s2 hs hP => orgsci_step_inv hs hP) runs initState st h
      initState_inv
  exact hI.2.2.1

/-- Witness for C4: in a concrete two-run build, the non-override node `"B"`
is strictly smaller than its parent `"A"`. -/
theorem C4_tree_invariant_witness :
    (⟨"B".toList, 10, some 1, [], false⟩ : Section).size
      < (⟨"A".toList, 50, some 0, [2], false⟩ : Section).size :=
  C4_tree_invariant [("A".toList, 50), ("B".toList, 10)] C4witState (by decide)
    2 ⟨"B".toList, 10, some 1, [], false⟩ 1 ⟨"A".toList, 50, some 0, [2], false⟩
    (by decide) rfl rfl (by decide)

/-- C4 counterexample: in the run sequence A(50), B(10), References(40),
C(20), the override branch attaches the References section (size 40) under
node B (size 10), and the next run C (size 20) becomes a child of References.
C is not override-created, yet its ancestor B has the smaller size 10 < 20,
so the claimed strictly-smaller-than-every-ancestor property is false. -/
theorem C4_tree_invariant_cex :
    orgsci_get_sections_build
        [("A".toList, 50), ("B".toList, 10), ("References".toList, 40),
         ("C".toList, 20)]
      = some C4cexState ∧
    (C4cexState.nodes[4]?).map Section.ovr = some false ∧
    (4 : Nat) ≠ 0 ∧
    2 ∈ (chainL C4cexState.nodes C4cexState.nodes.length 4).tail ∧
    pathStrict C4cexState 4 = false := by
  decide

/-- A concrete arena for the C9 witness: a root of size 100 with one child of
size 50. -/
def C9nodes : List Section :=
  [⟨[], 100, none, [1], false⟩, ⟨"Body".toList, 50, some 0, [], false⟩]

/-- Witness for C9: adding a size-70 section from the size-50 leaf skips the
leaf (50 ≤ 70) and attaches to the root (100 > 70). -/
theorem C9_backtrack_add_witness :
    ∃ t tn,
      (chainL C9nodes C9nodes.length 1).find? (sizeBig C9nodes 70) = some t ∧
      C9nodes[t]? = some tn ∧
      backtrack_add C9nodes 1 "New".toList 70
        = some (updAt C9nodes t
                  (fun n => { n with children := n.children ++ [C9nodes.length] })
                ++ [⟨"New".toList, 70, some t, [], false⟩], C9nodes.length) ∧
      (updAt C9nodes t
          (fun n => { n with children := n.children ++ [C9nodes.length] })
        ++ [⟨"New".toList, 70, some t, [], false⟩])[C9nodes.length]?
        = some ⟨"New".toList, 70, some t, [], false⟩ ∧
      (updAt C9nodes t
          (fun n => { n with children := n.children ++ [C9nodes.length] })
        ++ [⟨"New".toList, 70, some t, [], false⟩])[t]?
        = some { tn with children := tn.children ++ [C9nodes.length] } ∧
      ∀ j, j ≠ t → j ≠ C9nodes.length →
        (updAt C9nodes t
            (fun n => { n with children := n.children ++ [C9nodes.length] })
          ++ [⟨"New".toList, 70, some t, [], false⟩])[j]? = C9nodes[j]? :=
  C9_backtrack_add C9nodes 1 "New".toList 70 (by decide)

/-! ## String lemmas for the citation-processing proofs -/

theorem pySplitOnChar_not_mem {c : Char} {s : List Char} (h : c ∉ s) :
    pySplitOnChar c s = [s] := by
  induction s with
  | nil => rfl
  | cons a t ih =>
    have ha : ¬a = c := fun e => h (e ▸ List.mem_cons_self a t)
    rw [pySplitOnChar, if_neg ha, ih (fun hm => h (List.mem_cons_of_mem a hm))]

theorem pySplitOnChar_append {c : Char} {u v : List Char} (h : c ∉ u) :
    pySplitOnChar c (u ++ c :: v) = u :: pySplitOnChar c v := by
  induction u with
  | nil => simp [pySplitOnChar]
  | cons a u2 ih =>
    have ha : ¬a = c := fun e => h (e ▸ List.mem_cons_self a u2)
    rw [List.cons_append, pySplitOnChar, if_neg ha,
      ih (fun hm => h (List.mem_cons_of_mem a hm))]

theorem pyStartsWith_append (sub v : List Char) :
    pyStartsWith (sub ++ v) sub = true := by
  induction sub with
  | nil =>
    cases v with
    | nil => rfl
    | cons a t => rfl
  | cons b pre ih => simp [pyStartsWith, ih]

theorem pyStartsWith_decomp {s sub : List Char}
    (h : pyStartsWith s sub = true) : ∃ v, s = sub ++ v := by
  induction sub generalizing s with
  | nil => exact ⟨s, rfl⟩
  | cons b pre ih =>
    cases s with
    | nil => simp [pyStartsWith] at h
    | cons a t =>
      simp only [pyStartsWith, Bool.and_eq_true, decide_eq_true_eq] at h
      obtain ⟨v, hv⟩ := ih h.2
      exact ⟨v, by rw [h.1, hv]; rfl⟩

theorem pyFindN_pos {hay sub : List Char} (h : pyStartsWith hay sub = true) :
    pyFindN hay sub = some 0 := by
  cases hay <;> simp [pyFindN, h]

theorem pyFindN_neg_nil {sub : List Char} (h : pyStartsWith [] sub = false) :
    pyFindN [] sub = none := by
  simp [pyFindN, h]

theorem pyFindN_neg_cons {a : Char} {t sub : List Char}
    (h : pyStartsWith (a :: t) sub = false) :
    pyFindN (a :: t) sub = (pyFindN t sub).map (fun x => x + 1) := by
  simp [pyFindN, h]

theorem pyContains_parts (u sub v : List Char) :
    pyContains (u ++ sub ++ v) sub = true := by
  induction u with
  | nil =>
    rw [List.nil_append, pyContains, pyFindN_pos (pyStartsWith_append sub v)]
    rfl
  | cons a u2 ih =>
    have hshape : a :: u2 ++ sub ++ v = a :: (u2 ++ (sub ++ v)) := by
      simp [List.append_assoc]
    rw [hshape, pyContains]
    by_cases hs : pyStartsWith (a :: (u2 ++ (sub ++ v))) sub = true
    · rw [pyFindN_pos hs]
      rfl
    · rw [pyFindN_neg_cons (Bool.not_eq_true _ ▸ hs)]
      simp only [Option.isSome_map']
      simpa [pyContains, List.append_assoc] using ih

theorem pyContains_single {c : Char} {s : List Char} (h : c ∉ s) :
    pyContains s [c] = false := by
  induction s with
  | nil => rfl
  | cons a t ih =>
    have ha : ¬a = c := fun e => h (e ▸ List.mem_cons_self a t)
    have hsw : pyStartsWith (a :: t) [c] = false := by
      simp [pyStartsWith, ha]
    rw [pyContains, pyFindN_neg_cons hsw]
    simp only [Option.isSome_map']
    exact ih (fun hm => h (List.mem_cons_of_mem a hm))

theorem pyContains_decomp {s sub : List Char} (h : pyContains s sub = true) :
    ∃ u v, s = u ++ sub ++ v := by
  induction s with
  | nil =>
    by_cases hs : pyStartsWith [] sub = true
    · obtain ⟨v, hv⟩ := pyStartsWith_decomp hs
      exact ⟨[], v, hv⟩
    · rw [pyContains, pyFindN_neg_nil (Bool.not_eq_true _ ▸ hs)] at h
      exact absurd h (by simp)
  | cons a t ih =>
    by_cases hs : pyStartsWith (a :: t) sub = true
    · obtain ⟨v, hv⟩ := pyStartsWith_decomp hs
      exact ⟨[], v, hv⟩
    · rw [pyContains, pyFindN_neg_cons (Bool.not_eq_true _ ▸ hs)] at h
      simp only [Option.isSome_map'] at h
      obtain ⟨u, v, huv⟩ := ih h
      exact ⟨a :: u, v, by rw [huv]; simp [List.append_assoc]⟩

theorem splitOnP_sep (p : Char → Bool) (c : Char) (hc : p c = true)
    (u v : List Char) :
    List.splitOnP p (u ++ c :: v)
      = List.splitOnP p u ++ List.splitOnP p v := by
  induction u with
  | nil => simp [List.splitOnP_cons, List.splitOnP_nil, hc]
  | cons a u2 ih =>
    by_cases ha : p a = true
    · simp [List.splitOnP_cons, ha, ih]
    · simp only [List.cons_append, List.splitOnP_cons, ha, Bool.false_eq_true,
        if_false, ih]
      cases e : List.splitOnP p u2 with
      | nil => exact absurd e (List.splitOnP_ne_nil p u2)
      | cons h2 t2 => simp [List.modifyHead]

theorem pySplitWs_append_space (u v : List Char) :
    pySplitWs (u ++ ' ' :: v) = pySplitWs u ++ pySplitWs v := by
  rw [pySplitWs, pySplitWs, pySplitWs,
    splitOnP_sep isPySpace ' ' (by decide) u v, List.filter_append]

theorem pySplitWs_ne_nil {s : List Char} (hs : ∃ c ∈ s, isPySpace c = false) :
    pySplitWs s ≠ [] := by
  obtain ⟨c, hc, hcs⟩ := hs
  induction s with
  | nil => simp at hc
  | cons a t ih =>
    by_cases ha : isPySpace a = true
    · have hct : c ∈ t := by
        rcases List.mem_cons.mp hc with rfl | hm
        · rw [ha] at hcs
          exact absurd hcs (by simp)
        · exact hm
      simpa [pySplitWs, List.splitOnP_cons, ha] using ih hct
    · simp only [pySplitWs, List.splitOnP_cons, ha, Bool.false_eq_true, if_false]
      cases e : List.splitOnP isPySpace t with
      | nil => exact absurd e (List.splitOnP_ne_nil _ t)
      | cons h2 t2 => simp [List.modifyHead]

theorem mem_pyStrip {c : Char} {s : List Char} (h : c ∈ pyStrip s) : c ∈ s := by
  simp only [pyStrip, List.mem_reverse] at h
  have h2 := (List.dropWhile_sublist (l := (List.dropWhile isPySpace s).reverse)
    (p := isPySpace)).subset h
  rw [List.mem_reverse] at h2
  exact (List.dropWhile_sublist (l := s) (p := isPySpace)).subset h2

theorem pyStrip_ne_nil {s : List Char} (h : pyStrip s ≠ []) :
    ∃ c ∈ s, isPySpace c = false := by
  by_contra hall
  push_neg at hall
  apply h
  have hdrop : List.dropWhile isPySpace s = [] := by
    rw [List.dropWhile_eq_nil_iff]
    intro x hx
    by_contra hxf
    exact absurd (hall x hx) (by simp [Bool.not_eq_true] at hxf ⊢; exact hxf)
  simp [pyStrip, hdrop]

theorem pyStrip_cons_space (s : List Char) : pyStrip (' ' :: s) = pyStrip s := by
  simp [pyStrip, List.dropWhile_cons, isPySpace]

theorem pyJoin_single (sep x : List Char) : pyJoin sep [x] = x := by
  simp [pyJoin, List.intercalate]

theorem pyReplaceAmpComma_no_amp {v : List Char} (h : '&' ∉ v) :
    pyReplaceAmpComma v = v := by
  induction v with
  | nil => rfl
  | cons x t ih =>
    rw [pyReplaceAmpComma.eq_2]
    · rw [ih (fun hm => h (List.mem_cons_of_mem x hm))]
    · intro t2 hx ht
      exact h (by rw [ht]; exact List.mem_cons_of_mem x (List.mem_cons_self _ _))

theorem pyReplaceAmpComma_parts {u : List Char} (v : List Char) (h : '&' ∉ u) :
    pyReplaceAmpComma (u ++ ' ' :: '&' :: ' ' :: v)
      = u ++ ',' :: pyReplaceAmpComma v := by
  induction u with
  | nil => rfl
  | cons x u2 ih =>
    rw [List.cons_append, pyReplaceAmpComma.eq_2]
    · rw [ih (fun hm => h (List.mem_cons_of_mem x hm))]
      rfl
    · intro t2 hx ht
      cases u2 with
      | nil => simp at ht
      | cons z u3 =>
        apply h
        have : z = '&' := by
          have := congrArg (fun l => l.headD ' ') ht
          simpa using this
        rw [this]
        exact List.mem_cons_of_mem x (List.mem_cons_self _ _)

theorem getLastD_append_right {u v : List (List Char)} (h : v ≠ []) :
    (u ++ v).getLastD [] = v.getLastD [] := by
  rw [List.getLastD_eq_getLast?, List.getLastD_eq_getLast?,
    List.getLast?_append_of_ne_nil u h]

theorem splitOnP_no_sep {p : Char → Bool} {s : List Char}
    (h : ∀ c ∈ s, p c = false) : List.splitOnP p s = [s] := by
  induction s with
  | nil => rfl
  | cons a t ih =>
    rw [List.splitOnP_cons, h a (List.mem_cons_self a t),
      ih (fun c hc => h c (List.mem_cons_of_mem a hc))]
    rfl

theorem pySplitWs_no_space {s : List Char} (hne : s ≠ [])
    (h : ∀ c ∈ s, isPySpace c = false) : pySplitWs s = [s] := by
  rw [pySplitWs, splitOnP_no_sep h]
  simp [hne]

theorem pyContains_of_mem_sub {s sub : List Char} {c : Char} (hc : c ∈ sub)
    (hs : c ∉ s) : pyContains s sub = false := by
  by_contra hcon
  rw [Bool.not_eq_false] at hcon
  obtain ⟨u, v, he⟩ := pyContains_decomp hcon
  exact hs (by rw [he]; simp [hc])

/-! ## Citation processing (`process_citations` and friends)

`process_citations` exists in five per-journal variants.  The claims name the
jom, orgsci and aom variants; each is translated below.  Python tuple results
are modelled as `AYPair` with the author block as a list (orgsci's two-author
tuple becomes a two-element list, which is how the downstream matcher iterates
over it).  A branch whose Python code can raise an `IndexError`/`ValueError`
is modelled as `Option`/`Except`, returning `none`/`.error` exactly on the
inputs on which the Python expression raises. -/

/-- The exclusion tuple `("e.g.,", "", "e.g.,", "quoted", "in")` from jom's
`process_citations` case 1 (the duplicate entry is kept as in the source). -/
def jomExcluded (s : List Char) : Bool :=
  decide (s = "e.g.,".toList) || decide (s = []) || decide (s = "e.g.,".toList)
    || decide (s = "quoted".toList) || decide (s = "in".toList)

/-- Case 1 (`" & " in citation`) of jom's `process_citations`: split on commas,
last piece is the year, rejoin the rest, turn `" & "` into a comma, split
again, and keep the last whitespace token of every non-excluded name.  No
subexpression of this branch can raise: `name.split()[-1]` is only evaluated
for names whose strip is not `""`. -/
def jom_case1 (citation : List Char) : AYPair :=
  let tokens := pySplitOnChar ',' citation
  let year := tokens.getLastD []
  let names := pyJoin [','] tokens.dropLast
  let names2 := pyReplaceAmpComma names
  let names_split := pySplitOnChar ',' names2
  (((names_split.filter (fun n => !jomExcluded (pyStrip n))).map
      (fun n => pyStrip ((pySplitWs n).getLastD []))),
   pyStrip year)

/-- Case 2 (`"et al." in citation`) of jom's `process_citations`: delete the
`"et al."` markers, split on commas, strip the pieces; the last piece is the
year, the earlier non-empty pieces the authors.  This branch is total. -/
def jom_case2 (citation : List Char) : AYPair :=
  let tokens := pySplitOnChar ',' (pyRemoveEtAl citation)
  ((tokens.dropLast.filter (fun t => pyStrip t ≠ [])).map pyStrip,
   pyStrip (tokens.getLastD []))

/-- Case 3 of jom's `process_citations`.  With a parenthesis:
`author, year = citation.split()` raises unless the split has exactly two
tokens, and the year is `year[1:-1]`.  Without: `citation.split(",")[-2]`
raises when there is no comma, and `[-2].split()[-1]` raises when that piece
is all whitespace; the year is `citation.split(",")[-1].split(":")[0]`.
`none` marks exactly the raising inputs. -/
def jom_case3 (citation : List Char) : Option AYPair :=
  if pyContains citation "(".toList then
    match pySplitWs citation with
    | [author, year] =>
        some ([(pySplitWs author).getLastD []], pySlice year 1 (-1))
    | _ => none
  else
    let cs := pySplitOnChar ',' citation
    if cs.length < 2 then none
    else
      match (pySplitWs (cs.dropLast.getLastD [])).getLast? with
      | some author =>
          some ([author], (pySplitOnChar ':' (cs.getLastD [])).headD [])
      | none => none

/-- One loop iteration of jom's `process_citations`.  Case 1's `if` has no
`else`: the `else` of case 3 binds to the `"et al."` `if`, so an ampersand
citation without `"et al."` runs both case 1 and case 3 and appends twice.
The `try/except` around the body turns a raising case 3 into the appended
pair `([""], "")`, keeping whatever case 1 already appended. -/
def jom_process_one (citation : List Char) : List AYPair :=
  (if pyContains citation " & ".toList then [jom_case1 citation] else [])
    ++ (if pyContains citation "et al.".toList then [jom_case2 citation]
        else
          match jom_case3 citation with
          | some p => [p]
          | none => [([[]], [])])

/-- jom's `process_citations`: split the group on `";"` and process every
citation, concatenating the appended pairs. -/
def jom_process_citations (citation_group : List Char) : List AYPair :=
  ((pySplitOnChar ';' citation_group).map jom_process_one).flatten

/-- Error payload of the generic `Exception` re-raised by orgsci's
`process_citations` wrapper. -/
def orgsciErr : List Char :=
  "Error occurred while processing citations".toList

/-- orgsci's `clean_in_text_citations`: strip `"("`/`")"` off every mention,
split on commas, and keep only the stripped pieces containing a digit (the
comma pieces holding the authors are discarded here). -/
def orgsci_clean_in_text_citations
    (in_text_citations : List (List Char)) : List (List Char) :=
  (in_text_citations.map (fun citation =>
    ((pySplitOnChar ',' (pySlice citation 1 (-1))).filter
        (fun c => c.any (fun ch => ch.isDigit))).map pyStrip)).flatten

/-- orgsci's `process_citations`: `" and "` mentions yield the stripped author
pair, `"et al."` mentions the stripped halves, a single whitespace token
yields `None`, and anything else the joined authors with the last token as
year.  `names_split[1]` (resp. `tokens[-1]` on an all-whitespace citation)
raises `IndexError`, re-raised as a generic `Exception`, modelled as
`.error orgsciErr`. -/
def orgsci_process_citations (citation : List Char) :
    Except (List Char) (Option AYPair) :=
  if pyContains citation " and ".toList then
    let tokens := pySplitWs citation
    match pySplitAndWord (pyJoin [' '] tokens.dropLast) with
    | a :: b :: _ =>
        Except.ok (some ([pyStrip a, pyStrip b], pyStrip (tokens.getLastD [])))
    | _ => Except.error orgsciErr
  else if pyContains citation "et al.".toList then
    match pySplitEtAl citation with
    | t0 :: t1 :: _ => Except.ok (some ([pyStrip t0], pyStrip t1))
    | _ => Except.error orgsciErr
  else
    match pySplitWs citation with
    | [] => Except.error orgsciErr
    | [_] => Except.ok none
    | tokens =>
        Except.ok (some ([pyStrip (pyJoin [' '] tokens.dropLast)],
          pyStrip (tokens.getLastD [])))

/-- The exclusion tuple `("", "e.g.")` from aom's `process_citations`. -/
def aomExcluded (s : List Char) : Bool :=
  decide (s = []) || decide (s = "e.g.".toList)

/-- Case 1 (`"&" in citation`) of aom's `process_citations`: like jom's but
with a bare `"&"` guard, `replace("&", ",")` (single-character replace, i.e.
a character map), and the names kept stripped whole, not reduced to their
last whitespace token. -/
def aom_case1 (citation : List Char) : AYPair :=
  let tokens := pySplitOnChar ',' citation
  let year := tokens.getLastD []
  let names := pyJoin [','] tokens.dropLast
  let names2 := names.map (fun c => if c = '&' then ',' else c)
  let names_split := pySplitOnChar ',' names2
  ((names_split.filter (fun n => !aomExcluded (pyStrip n))).map pyStrip,
   pyStrip year)

/-- Case 2 of aom's `process_citations` (textually identical to jom's). -/
def aom_case2 (citation : List Char) : AYPair :=
  let tokens := pySplitOnChar ',' (pyRemoveEtAl citation)
  ((tokens.dropLast.filter (fun t => pyStrip t ≠ [])).map pyStrip,
   pyStrip (tokens.getLastD []))

/-- Case 3 of aom's `process_citations`: as jom's, but the author is not
re-split (`[citation_split[-2]]`, `[author]`) and the year of the comma
branch is `citation_split[-1].strip()`.  `none` marks the raising inputs
(`citation.split()` not of length two, or no comma). -/
def aom_case3 (citation : List Char) : Option AYPair :=
  if pyContains citation "(".toList then
    match pySplitWs citation with
    | [author, year] => some ([author], pySlice year 1 (-1))
    | _ => none
  else
    let cs := pySplitOnChar ',' citation
    if cs.length < 2 then none
    else some ([cs.dropLast.getLastD []], pyStrip (cs.getLastD []))

/-- One loop iteration of aom's `process_citations`, with the same dangling
`else` and the same `except`-appends-`([""], "")` behaviour as jom's. -/
def aom_process_one (citation : List Char) : List AYPair :=
  (if pyContains citation "&".toList then [aom_case1 citation] else [])
    ++ (if pyContains citation "et al.".toList then [aom_case2 citation]
        else
          match aom_case3 citation with
          | some p => [p]
          | none => [([[]], [])])

/-- aom's `process_citations`.  As committed, `journals/aom.py` line 257 has
an `except` with no matching `try:` (the `try:` opening the loop body was
lost), an `IndentationError`.  The minimal repair restores that `try:` line;
it leaves `return results` indented inside the `for` loop, so the function
returns after processing the first `";"`-piece of the group (the split list
is never empty, so the loop always runs at least once). -/
def aom_process_citations (citation_group : List Char) : List AYPair :=
  aom_process_one ((pySplitOnChar ';' citation_group).headD [])

/-- C6: two-author decomposition in jom's `process_citations`.  For a
citation group of the shape `A & B, Y` (no stray `&`, `,`, `;` or `(` inside
the parts, no `:` in the year, neither stripped author block empty or in the
exclusion tuple, no `"et al."` occurrence), the result holds the pair of
last-whitespace-token surnames with the stripped year — followed by a second,
spurious pair produced because the single-author branch is an `else` of the
`"et al."` check, not of the ampersand check: it holds only the second
author's last token, with the year not stripped. -/
theorem C6_two_author_decomposition (a b y : List Char)
    (haa : '&' ∉ a) (hab : '&' ∉ b)
    (hca : ',' ∉ a) (hcb : ',' ∉ b) (hcy : ',' ∉ y)
    (hsa : ';' ∉ a) (hsb : ';' ∉ b) (hsy : ';' ∉ y)
    (hpa : '(' ∉ a) (hpb : '(' ∉ b) (hpy : '(' ∉ y)
    (hky : ':' ∉ y)
    (hxa : pyStrip a ∉ ([[], "quoted".toList, "in".toList] : List (List Char)))
    (hxb : pyStrip b ∉ ([[], "quoted".toList, "in".toList] : List (List Char)))
    (hetal : pyContains (a ++ ' ' :: '&' :: ' ' :: (b ++ ',' :: ' ' :: y))
        "et al.".toList = false) :
    jom_process_citations (a ++ ' ' :: '&' :: ' ' :: (b ++ ',' :: ' ' :: y))
      = [([pyStrip ((pySplitWs a).getLastD []),
           pyStrip ((pySplitWs b).getLastD [])], pyStrip y),
         ([(pySplitWs b).getLastD []], ' ' :: y)] := by
  simp only [List.mem_cons, List.not_mem_nil, or_false, not_or] at hxa hxb
  have hsemc : ';' ∉ a ++ ' ' :: '&' :: ' ' :: (b ++ ',' :: ' ' :: y) := by
    simp only [List.mem_append, List.mem_cons, not_or]
    exact ⟨hsa, by decide, by decide, by decide, hsb, by decide, by decide, hsy⟩
  have hparc : '(' ∉ a ++ ' ' :: '&' :: ' ' :: (b ++ ',' :: ' ' :: y) := by
    simp only [List.mem_append, List.mem_cons, not_or]
    exact ⟨hpa, by decide, by decide, by decide, hpb, by decide, by decide, hpy⟩
  have hcomU : ',' ∉ a ++ ' ' :: '&' :: ' ' :: b := by
    simp only [List.mem_append, List.mem_cons, not_or]
    exact ⟨hca, by decide, by decide, by decide, hcb⟩
  have hsplitG : pySplitOnChar ';'
      (a ++ ' ' :: '&' :: ' ' :: (b ++ ',' :: ' ' :: y))
      = [a ++ ' ' :: '&' :: ' ' :: (b ++ ',' :: ' ' :: y)] :=
    pySplitOnChar_not_mem hsemc
  have hampT : pyContains (a ++ ' ' :: '&' :: ' ' :: (b ++ ',' :: ' ' :: y))
      " & ".toList = true := by
    rw [show (" & ".toList : List Char) = [' ', '&', ' '] from rfl]
    simpa [List.append_assoc] using
      pyContains_parts a [' ', '&', ' '] (b ++ ',' :: ' ' :: y)
  have hsplitC : pySplitOnChar ','
      (a ++ ' ' :: '&' :: ' ' :: (b ++ ',' :: ' ' :: y))
      = [a ++ ' ' :: '&' :: ' ' :: b, ' ' :: y] := by
    have hv : pySplitOnChar ',' (' ' :: y) = [' ' :: y] := by
      apply pySplitOnChar_not_mem
      intro hm
      rcases List.mem_cons.mp hm with h | h
      · exact absurd h (by decide)
      · exact hcy h
    have h := pySplitOnChar_append (u := a ++ ' ' :: '&' :: ' ' :: b)
      (v := ' ' :: y) hcomU
    rw [hv] at h
    simpa [List.append_assoc] using h
  have hfa : jomExcluded (pyStrip a) = false := by
    have h1 : ¬pyStrip a = "e.g.,".toList := by
      intro he
      exact hca (mem_pyStrip (he ▸ (by decide : ',' ∈ "e.g.,".toList)))
    simp [jomExcluded, h1, hxa.1, hxa.2.1, hxa.2.2]
    exact ⟨⟨h1, hxa.2.1⟩, hxa.2.2⟩
  have hfb : jomExcluded (pyStrip b) = false := by
    have h1 : ¬pyStrip b = "e.g.,".toList := by
      intro he
      exact hcb (mem_pyStrip (he ▸ (by decide : ',' ∈ "e.g.,".toList)))
    simp [jomExcluded, h1, hxb.1, hxb.2.1, hxb.2.2]
    exact ⟨⟨h1, hxb.2.1⟩, hxb.2.2⟩
  have hrep : pyReplaceAmpComma (a ++ ' ' :: '&' :: ' ' :: b) = a ++ ',' :: b := by
    rw [pyReplaceAmpComma_parts b haa, pyReplaceAmpComma_no_amp hab]
  have hsplit2 : pySplitOnChar ',' (a ++ ',' :: b) = [a, b] := by
    rw [pySplitOnChar_append hca, pySplitOnChar_not_mem hcb]
  have hc1 : jom_case1 (a ++ ' ' :: '&' :: ' ' :: (b ++ ',' :: ' ' :: y))
      = ([pyStrip ((pySplitWs a).getLastD []),
          pyStrip ((pySplitWs b).getLastD [])], pyStrip y) := by
    rw [jom_case1, hsplitC]
    simp only [List.getLastD_cons, List.getLastD_nil, List.dropLast_cons₂,
      List.dropLast_single, pyJoin_single, hrep, hsplit2]
    simp only [List.filter_cons, List.filter_nil, hfa, hfb, Bool.not_false,
      if_true, List.map_cons, List.map_nil, pyStrip_cons_space]
  have hwsb : pySplitWs b ≠ [] := by
    apply pySplitWs_ne_nil
    exact pyStrip_ne_nil hxb.1
  have hwsu : pySplitWs (a ++ ' ' :: '&' :: ' ' :: b)
      = (pySplitWs a ++ [['&']]) ++ pySplitWs b := by
    have h1 := pySplitWs_append_space a ('&' :: ' ' :: b)
    have h2 := pySplitWs_append_space ['&'] b
    simp only [List.cons_append, List.nil_append] at h2
    rw [h1, h2, show pySplitWs ['&'] = [['&']] from rfl, List.append_assoc]
  have hglb : (pySplitWs b).getLast? = some ((pySplitWs b).getLastD []) := by
    cases e : (pySplitWs b).getLast? with
    | none => exact absurd (List.getLast?_eq_none_iff.mp e) hwsb
    | some x => rw [List.getLastD_eq_getLast?, e]; rfl
  have hgl : (pySplitWs (a ++ ' ' :: '&' :: ' ' :: b)).getLast?
      = some ((pySplitWs b).getLastD []) := by
    rw [hwsu, List.getLast?_append_of_ne_nil _ hwsb, hglb]
  have hcy2 : pySplitOnChar ':' (' ' :: y) = [' ' :: y] := by
    apply pySplitOnChar_not_mem
    intro hm
    rcases List.mem_cons.mp hm with h | h
    · exact absurd h (by decide)
    · exact hky h
  have hc3 : jom_case3 (a ++ ' ' :: '&' :: ' ' :: (b ++ ',' :: ' ' :: y))
      = some ([(pySplitWs b).getLastD []], ' ' :: y) := by
    rw [jom_case3, show ("(".toList : List Char) = ['('] from rfl,
      pyContains_single hparc]
    simp only [Bool.false_eq_true, if_false]
    rw [hsplitC]
    simp only [List.length_cons, List.length_nil, List.dropLast_cons₂,
      List.dropLast_single, List.getLastD_cons, List.getLastD_nil]
    rw [hgl, hcy2]
    simp
  rw [jom_process_citations, hsplitG]
  simp only [List.map_cons, List.map_nil, List.flatten_cons, List.flatten_nil,
    List.append_nil]
  rw [jom_process_one, hampT, hetal, hc3]
  simp only [if_true, Bool.false_eq_true, if_false]
  rw [hc1]
  rfl

/-- C6 witness: the citation `"Lee & Park, 2020"` decomposes to the surname
pair with year `([Lee, Park], 2020)`, plus the spurious dangling-`else` pair
`([Park], " 2020")`. -/
theorem C6_two_author_decomposition_witness :
    jom_process_citations
        ("Lee".toList ++ ' ' :: '&' :: ' ' ::
          ("Park".toList ++ ',' :: ' ' :: "2020".toList))
      = [(["Lee".toList, "Park".toList], "2020".toList),
         (["Park".toList], ' ' :: "2020".toList)] := by
  have h := C6_two_author_decomposition "Lee".toList "Park".toList "2020".toList
    (by decide) (by decide) (by decide) (by decide) (by decide) (by decide)
    (by decide) (by decide) (by decide) (by decide) (by decide) (by decide)
    (by decide) (by decide) (by decide)
  rw [h]
  rfl

/-- C6 counterexample: in the orgsci pipeline the two-author mention
`"(Lee and Park, 2020)"` is reduced by `clean_in_text_citations` to the bare
year `"2020"` (the comma piece holding the author block has no digit and is
dropped), and `process_citations` then returns `None`: the pipeline produces
no surname pair at all for the two-author mention. -/
theorem C6_two_author_decomposition_cex :
    orgsci_clean_in_text_citations ["(Lee and Park, 2020)".toList]
      = ["2020".toList] ∧
    orgsci_process_citations "2020".toList = Except.ok none :=
  ⟨rfl, rfl⟩

/-- C7: a malformed single-token citation (non-empty, no whitespace, none of
the branch-trigger characters).  orgsci's `process_citations` discards it
(`None`, no raise), as the spec says; aom's instead appends the catch-all
pair `([""], "")` produced by its `except` clause. -/
theorem C7_single_token_citation (s : List Char) (hne : s ≠ [])
    (hns : ∀ c ∈ s, isPySpace c = false)
    (hamp : '&' ∉ s) (hpar : '(' ∉ s) (hcom : ',' ∉ s) (hsem : ';' ∉ s) :
    orgsci_process_citations s = Except.ok none ∧
    aom_process_citations s = [([[]], [])] := by
  have hsp : ' ' ∉ s := fun hm => absurd (hns ' ' hm) (by decide)
  have hand : pyContains s " and ".toList = false :=
    pyContains_of_mem_sub (by decide) hsp
  have hetal : pyContains s "et al.".toList = false :=
    pyContains_of_mem_sub (by decide) hsp
  constructor
  · rw [orgsci_process_citations, hand, hetal]
    simp only [Bool.false_eq_true, if_false]
    rw [pySplitWs_no_space hne hns]
  · have h1 : pyContains s "&".toList = false := by
      rw [show ("&".toList : List Char) = ['&'] from rfl]
      exact pyContains_single hamp
    have h3 : pyContains s "(".toList = false := by
      rw [show ("(".toList : List Char) = ['('] from rfl]
      exact pyContains_single hpar
    have hc3 : aom_case3 s = none := by
      rw [aom_case3, h3]
      simp only [Bool.false_eq_true, if_false]
      rw [pySplitOnChar_not_mem hcom]
      simp
    rw [aom_process_citations, pySplitOnChar_not_mem hsem]
    simp only [List.headD_cons]
    rw [aom_process_one, h1, hetal, hc3]
    simp only [Bool.false_eq_true, if_false]
    rfl

/-- C7 witness: the single-token citation `"Smith"` yields `None` in orgsci
and the catch-all pair `([""], "")` in aom. -/
theorem C7_single_token_citation_witness :
    orgsci_process_citations "Smith".toList = Except.ok none ∧
    aom_process_citations "Smith".toList = [([[]], [])] :=
  C7_single_token_citation "Smith".toList (by decide) (by decide) (by decide)
    (by decide) (by decide) (by decide)

/-- C7 counterexample: aom's pipeline does not discard the malformed
single-token mention `"Smith"`: it appends `([""], "")`, and since aom's
`find_citation_matches` checks neither `year != ""` nor `author != ""` and
the empty string is a substring of every string, that pair matches every
reference — here it records the citing location against an arbitrary
entry. -/
theorem C7_single_token_citation_cex :
    aom_process_citations "Smith".toList = [([[]], [])] ∧
    aom_find_citation_matches [([[]], [])] ["Brown, J. 1999. Title.".toList]
      [] "Intro".toList
      = [("Brown, J. 1999. Title.".toList, ["Intro".toList])] :=
  ⟨rfl, rfl⟩

end RPP
